import Mathlib

/-!
Verification development for the magnet-webdav torrent service.

We shallowly embed the Go code of the repository: the torrent service
(`services.TorrentService`: AddMagnet, addTorrentToClient, handleTorrentReady,
GetTorrent, GetFileStream, Stop, extractInfoHash, getMimeType), the API handler
(`handlers.RemoveMagnet`) and the WebDAV handler (`handlers.handleGet`,
`handleConditionalRequest`, `generateETag`, `parseRangeHeader`, `isVideoFile`,
`getMimeType`).

Modelling conventions:
* The gorm-backed database is modelled as in-memory lists of rows
  (`ServiceState.magnets`, `ServiceState.files`); `autoIncrement` primary keys
  are modelled by `ServiceState.nextFileID`.  Timestamp columns and the
  access-count column (pure wall-clock data, referenced by no claim) are
  omitted.
* The in-memory `activeTorrents` Go map is modelled as an association list with
  Go map semantics (assignment replaces the key, `delete` removes it); the Go
  mutex serialises access, so operations are modelled as sequential functions.
* The external anacrolix torrent client is modelled by the `Torrent` value it
  hands back and by an `EngineResult` describing which arm of the
  `select` in `addTorrentToClient` fires.
* Go panics (out-of-range slicing) are modelled with `Except`: `Except.error`
  is a panic.
* Byte-level string handling (`len`, UTF-8 encoding) is modelled on the
  character list of the string via `Char.utf8Size`.
-/

namespace MagnetWebdav

/-- Byte length of a string: Go `len(s)` on a UTF-8 string. -/
def strByteLen (s : String) : Nat := (s.data.map Char.utf8Size).sum

/-- ASCII lowercasing of one character (Go `strings.ToLower` restricted to the
ASCII range, which is all the code ever feeds it: hex info-hashes and file
extensions). -/
def lowerChar (c : Char) : Char :=
  if 65 ≤ c.toNat ∧ c.toNat ≤ 90 then Char.ofNat (c.toNat + 32) else c

/-- Go `strings.ToLower` (ASCII fragment). -/
def asciiLower (s : String) : String := String.mk (s.data.map lowerChar)

/-- Split a character list on a separator character: Go `strings.Split` with a
one-character separator. -/
def splitOnChar (sep : Char) : List Char → List (List Char)
  | [] => [[]]
  | c :: cs =>
    let rest := splitOnChar sep cs
    if c = sep then [] :: rest
    else
      match rest with
      | [] => [[c]]
      | p :: ps => (c :: p) :: ps

/-- The characters of `l` from the last `'.'` onward (inclusive), `none` when no
`'.'` occurs.  Models Go `s[strings.LastIndex(s, "."):]`: the `none` case is the
`-1` index, on which the Go slice expression panics. -/
def lastDotSuffix : List Char → Option (List Char)
  | [] => none
  | c :: cs =>
    match lastDotSuffix cs with
    | some suf => some suf
    | none => if c = '.' then some (c :: cs) else none

/-- Characters after the last `'/'` (the whole list when there is no `'/'`). -/
def afterLastSlash (l : List Char) : List Char :=
  (l.reverse.takeWhile (fun c => c ≠ '/')).reverse

/-- Go `path.Ext`: the suffix starting at the final `'.'` of the last
slash-separated element, `""` when that element has no dot. -/
def pathExt (p : String) : String :=
  match lastDotSuffix (afterLastSlash p.data) with
  | some suf => String.mk suf
  | none => ""

/-- Go `path.Base`: the last element of the path, after trailing slashes are
removed; `"."` for the empty path, `"/"` for an all-slash path. -/
def pathBase (p : String) : String :=
  if p = "" then "."
  else
    let stripped := (p.data.reverse.dropWhile (fun c => c = '/')).reverse
    if stripped = [] then "/"
    else String.mk (afterLastSlash stripped)

/-- UTF-8 encoding of one character, as a list of byte values. -/
def charUtf8 (c : Char) : List Nat :=
  let n := c.toNat
  if n < 128 then [n]
  else if n < 2048 then [192 + n / 64, 128 + n % 64]
  else if n < 65536 then [224 + n / 4096, 128 + (n / 64) % 64, 128 + n % 64]
  else [240 + n / 262144, 128 + (n / 4096) % 64, 128 + (n / 64) % 64, 128 + n % 64]

/-- Go `[]byte(s)`: the UTF-8 bytes of a string. -/
def utf8Bytes (s : String) : List Nat := s.data.flatMap charUtf8

/-! ### SHA-1 (crypto/sha1), used by `extractInfoHash`'s fallback -/

/-- `2^32`. -/
def M32 : Nat := 4294967296

/-- 32-bit rotate left. -/
def rotl (n x : Nat) : Nat := ((x <<< n) % M32) ||| (x >>> (32 - n))

/-- Big-endian bytes of a 32-bit word. -/
def be32 (n : Nat) : List Nat :=
  [n / 16777216 % 256, n / 65536 % 256, n / 256 % 256, n % 256]

/-- Big-endian bytes of a 64-bit word. -/
def be64 (n : Nat) : List Nat := be32 (n / M32) ++ be32 (n % M32)

/-- SHA-1 message padding: a `0x80` byte, zeros to 56 mod 64, then the
big-endian 64-bit bit length. -/
def sha1pad (msg : List Nat) : List Nat :=
  let z := (119 - (msg.length % 64)) % 64
  msg ++ 128 :: (List.replicate z 0 ++ be64 (msg.length * 8))

/-- Group bytes into big-endian 32-bit words. -/
def toWords : List Nat → List Nat
  | a :: b :: c :: d :: rest => (a * 16777216 + b * 65536 + c * 256 + d) :: toWords rest
  | _ => []

/-- Extend 16 words to the 80-word SHA-1 message schedule. -/
def sha1extend (w : List Nat) : List Nat :=
  (List.range 64).foldl
    (fun w _ =>
      w ++ [rotl 1 ((w.getD (w.length - 3) 0) ^^^ (w.getD (w.length - 8) 0) ^^^
                    (w.getD (w.length - 14) 0) ^^^ (w.getD (w.length - 16) 0))])
    w

/-- SHA-1 round function. -/
def sha1f (i b c d : Nat) : Nat :=
  if i < 20 then (b &&& c) ||| ((b ^^^ 4294967295) &&& d)
  else if i < 40 then b ^^^ c ^^^ d
  else if i < 60 then (b &&& c) ||| (b &&& d) ||| (c &&& d)
  else b ^^^ c ^^^ d

/-- SHA-1 round constants. -/
def sha1k (i : Nat) : Nat :=
  if i < 20 then 1518500249
  else if i < 40 then 1859775393
  else if i < 60 then 2400959708
  else 3395469782

/-- Process one 64-byte chunk. -/
def sha1chunk (h : Nat × Nat × Nat × Nat × Nat) (chunk : List Nat) :
    Nat × Nat × Nat × Nat × Nat :=
  let w := sha1extend (toWords chunk)
  let st := (List.range 80).foldl
    (fun st i =>
      match st with
      | (a, b, c, d, e) =>
        ((rotl 5 a + sha1f i b c d + e + sha1k i + w.getD i 0) % M32, a, rotl 30 b, c, d))
    h
  match h, st with
  | (h0, h1, h2, h3, h4), (a, b, c, d, e) =>
    ((h0 + a) % M32, (h1 + b) % M32, (h2 + c) % M32, (h3 + d) % M32, (h4 + e) % M32)

/-- Split a byte list into 64-byte chunks (`fuel` bounds the recursion). -/
def chunksAux : Nat → List Nat → List (List Nat)
  | 0, _ => []
  | _ + 1, [] => []
  | fuel + 1, l => l.take 64 :: chunksAux fuel (l.drop 64)

/-- The 20-byte SHA-1 digest of a byte list. -/
def sha1sum (msg : List Nat) : List Nat :=
  let padded := sha1pad msg
  let fin := (chunksAux padded.length padded).foldl sha1chunk
    (1732584193, 4023233417, 2562383102, 271733878, 3285377520)
  match fin with
  | (a, b, c, d, e) => be32 a ++ be32 b ++ be32 c ++ be32 d ++ be32 e

/-- Lowercase hex of a byte list, as Go `hex.EncodeToString`. -/
def hexOfBytes (l : List Nat) : List Char :=
  l.flatMap (fun b => [Nat.digitChar (b / 16), Nat.digitChar (b % 16)])

/-! ### Data model -/

/-- A `models.Magnet` row (timestamps and access counter omitted). -/
structure Magnet where
  id : String
  magnetURI : String
  name : String
  totalSize : Int
  fileCount : Nat
  status : String
deriving DecidableEq

/-- A `models.File` row (timestamps omitted). -/
structure File where
  id : Nat
  magnetID : String
  filePath : String
  fileName : String
  fileSize : Int
  fileIndex : Nat
  mimeType : String
deriving DecidableEq

/-- One file reported by the torrent engine: `torrent.File.Path()` and
`.Length()`. -/
structure TorrentFile where
  path : String
  length : Int
deriving DecidableEq

/-- A live `*torrent.Torrent` handle: `hasInfo` models `Info() != nil`. -/
structure Torrent where
  name : String
  totalLength : Int
  files : List TorrentFile
  hasInfo : Bool
deriving DecidableEq

/-- The whole service state: the two database tables, the `activeTorrents`
map, and the next auto-increment file id. -/
structure ServiceState where
  magnets : List Magnet
  files : List File
  activeTorrents : List (String × Torrent)
  nextFileID : Nat
deriving DecidableEq

/-! ### Association-list operations (Go map semantics) -/

/-- Lookup in an association list. -/
def lookupA {α : Type} : List (String × α) → String → Option α
  | [], _ => none
  | (k, v) :: t, q => if k = q then some v else lookupA t q

/-- Remove a key: Go `delete(m, k)`. -/
def eraseA {α : Type} (m : List (String × α)) (k : String) : List (String × α) :=
  m.filter (fun kv => kv.1 ≠ k)

/-- Go map assignment `m[k] = v`. -/
def insertA {α : Type} (m : List (String × α)) (k : String) (v : α) :
    List (String × α) :=
  eraseA m k ++ [(k, v)]

namespace Services

/-- `regexp btih:([^&]+)` applied at the head of the list: the token after
`btih:`, a maximal nonempty run of non-`&` characters. -/
def btihToken : List Char → Option (List Char)
  | 'b' :: 't' :: 'i' :: 'h' :: ':' :: rest =>
    let tok := rest.takeWhile (fun c => c ≠ '&')
    if tok = [] then none else some tok
  | _ => none

/-- `re.FindStringSubmatch`: leftmost match of `btih:([^&]+)`. -/
def findBtih : List Char → Option (List Char)
  | [] => none
  | c :: cs =>
    match btihToken (c :: cs) with
    | some tok => some tok
    | none => findBtih cs

/-- `TorrentService.extractInfoHash`: the lowercased btih token when the regex
matches, otherwise the first 20 hex characters of the SHA-1 of the URI text. -/
def extractInfoHash (magnetURI : String) : String :=
  match findBtih magnetURI.data with
  | some tok => asciiLower (String.mk tok)
  | none => String.mk ((hexOfBytes (sha1sum (utf8Bytes magnetURI))).take 20)

/-- The `services` mime table. -/
def mimeFor (ext : String) : Option String :=
  if ext = ".mp4" then some "video/mp4"
  else if ext = ".mkv" then some "video/x-matroska"
  else if ext = ".avi" then some "video/x-msvideo"
  else if ext = ".mov" then some "video/quicktime"
  else if ext = ".webm" then some "video/webm"
  else if ext = ".jpg" then some "image/jpeg"
  else if ext = ".png" then some "image/png"
  else if ext = ".srt" then some "text/plain"
  else if ext = ".ass" then some "text/plain"
  else none

/-- `TorrentService.getMimeType` (uses `path.Ext`, total). -/
def getMimeType (filename : String) : String :=
  match mimeFor (asciiLower (pathExt filename)) with
  | some m => m
  | none => "application/octet-stream"

/-- Linear scan of the magnets table: gorm `Where("id = ?").First`. -/
def findMagnetL : List Magnet → String → Option Magnet
  | [], _ => none
  | m :: t, i => if m.id = i then some m else findMagnetL t i

/-- `TorrentService.AddMagnet`.  Returns the record, the new state, and whether
the asynchronous `addTorrentToClient` goroutine was spawned. -/
def AddMagnet (s : ServiceState) (magnetURI : String) :
    Magnet × ServiceState × Bool :=
  let infoHash := extractInfoHash magnetURI
  match findMagnetL s.magnets infoHash with
  | some m => (m, s, false)
  | none =>
    let m : Magnet :=
      { id := infoHash, magnetURI := magnetURI, name := "", totalSize := 0,
        fileCount := 0, status := "pending" }
    (m, { s with magnets := s.magnets ++ [m] }, true)

/-- `TorrentService.GetTorrent`. -/
def GetTorrent (s : ServiceState) (infoHash : String) : Option Torrent :=
  lookupA s.activeTorrents infoHash

/-- The result of a successful `GetFileStream`: the file and the reader's
seek position. -/
structure FileStream where
  file : TorrentFile
  readerStart : Int
deriving DecidableEq

/-- `TorrentService.GetFileStream`. -/
def GetFileStream (s : ServiceState) (infoHash filePath : String)
    (start end_ : Int) : Except String FileStream :=
  match GetTorrent s infoHash with
  | none => Except.error ("torrent not found: " ++ infoHash)
  | some torr =>
    if torr.hasInfo = false then Except.error ("torrent not ready: " ++ infoHash)
    else if torr.files.length = 0 then
      Except.error ("no files in torrent: " ++ infoHash)
    else
      match torr.files.find? (fun f => f.path == filePath) with
      | none =>
        Except.error ("file not found: " ++ filePath ++ " in torrent " ++ infoHash)
      | some f =>
        let _ := end_
        Except.ok { file := f, readerStart := if start > 0 then start else 0 }

/-- `TorrentService.updateMagnetStatus`. -/
def updateMagnetStatus (s : ServiceState) (infoHash status errorMsg : String) :
    ServiceState :=
  { s with magnets := s.magnets.map (fun m =>
      if m.id = infoHash then
        if errorMsg ≠ "" then { m with status := status, name := errorMsg }
        else { m with status := status }
      else m) }

/-- `TorrentService.Stop`: drops every torrent and clears the map. -/
def Stop (s : ServiceState) : ServiceState := { s with activeTorrents := [] }

/-! ### handleTorrentReady (the metadata synchronizer) -/

/-- The `newFile` record built in the walk over `torr.Files()` (id 0 until
the insert assigns one). -/
def newFile (h : String) (f : TorrentFile) (i : Nat) (mime : String) : File :=
  { id := 0, magnetID := h, filePath := f.path, fileName := pathBase f.path,
    fileSize := f.length, fileIndex := i, mimeType := mime }

/-- The updated row staged when an existing row differs from the report. -/
def updRow (ex : File) (i : Nat) (f : TorrentFile) (mime : String) : File :=
  { ex with fileSize := f.length, fileIndex := i, mimeType := mime }

/-- The `needsUpdate` flag: length, index or mime type differs. -/
def needsUpdate (ex : File) (i : Nat) (f : TorrentFile) (mime : String) : Bool :=
  (ex.fileSize != f.length) || (ex.fileIndex != i) || (ex.mimeType != mime)

/-- The Go map `existingFileMap`, built by iterating the rows in order
(later rows overwrite earlier ones with the same path). -/
def buildFileMap (rows : List File) : List (String × File) :=
  rows.foldl (fun m r => insertA m r.filePath r) []

/-- The `for i, file := range torr.Files()` walk of `handleTorrentReady`:
returns the staged creates, the staged updates, and the leftover map (whose
rows are then staged for deletion). -/
def walk (h : String) : List (String × File) → List String → Nat →
    List TorrentFile → List File × List File × List (String × File)
  | fm, _, _, [] => ([], [], fm)
  | fm, seen, i, f :: fs =>
    if f.path ∈ seen then walk h fm seen (i + 1) fs
    else
      let mime := getMimeType f.path
      match lookupA fm f.path with
      | some ex =>
        let out := walk h (eraseA fm f.path) (f.path :: seen) (i + 1) fs
        (out.1, (if needsUpdate ex i f mime then [updRow ex i f mime] else []) ++ out.2.1,
         out.2.2)
      | none =>
        let out := walk h fm (f.path :: seen) (i + 1) fs
        (newFile h f i mime :: out.1, out.2.1, out.2.2)

/-- Assign auto-increment ids to the staged creates on insert. -/
def assignIds : List File → Nat → List File × Nat
  | [], n => ([], n)
  | c :: cs, n =>
    let out := assignIds cs (n + 1)
    ({ c with id := n } :: out.1, out.2)

/-- Apply the staged updates: each `db.Save` replaces the row with the
matching primary key. -/
def applyUpdates (us : List File) (rows : List File) : List File :=
  us.foldl (fun acc u => acc.map (fun r => if r.id = u.id then u else r)) rows

/-- `TorrentService.handleTorrentReady`: update the magnet summary, then
reconcile the file rows (bulk create, per-row update, bulk delete). -/
def handleTorrentReady (s : ServiceState) (torr : Torrent) (infoHash : String) :
    ServiceState :=
  let magnets1 := s.magnets.map (fun m =>
    if m.id = infoHash then
      { m with
          name := torr.name,
          totalSize := torr.totalLength,
          fileCount := torr.files.length,
          status := "ready" }
    else m)
  let existingFiles := s.files.filter (fun r => r.magnetID = infoHash)
  let out := walk infoHash (buildFileMap existingFiles) [] 0 torr.files
  let created := assignIds out.1 s.nextFileID
  let afterUpdate := applyUpdates out.2.1 (s.files ++ created.1)
  let delIds := out.2.2.map (fun kv => kv.2.id)
  { magnets := magnets1,
    files := afterUpdate.filter (fun r => ¬ r.id ∈ delIds),
    activeTorrents := s.activeTorrents,
    nextFileID := created.2 }

/-- Which arm of the three-way `select` in `addTorrentToClient` fires. -/
inductive RaceOutcome where
  | gotInfo
  | timeout
  | shutdownSignal
deriving DecidableEq

/-- The torrent client's response to `client.AddMagnet` plus the race
outcome when it succeeds. -/
inductive EngineResult where
  | failed (msg : String)
  | added (torr : Torrent) (race : RaceOutcome)
deriving DecidableEq

/-- `TorrentService.addTorrentToClient`: on success the torrent is stored in
`activeTorrents` first, then the select races metadata, the 30-second
timeout, and shutdown. -/
def addTorrentToClient (s : ServiceState) (_magnetURI infoHash : String)
    (res : EngineResult) : ServiceState :=
  match res with
  | EngineResult.failed msg => updateMagnetStatus s infoHash "error" msg
  | EngineResult.added torr race =>
    let s1 := { s with activeTorrents := insertA s.activeTorrents infoHash torr }
    match race with
    | RaceOutcome.gotInfo => handleTorrentReady s1 torr infoHash
    | RaceOutcome.timeout => updateMagnetStatus s1 infoHash "error" "metadata timeout"
    | RaceOutcome.shutdownSignal => s1

/-! ### Specification helpers for the reconciliation proofs -/

/-- The rows of the file table that belong to one magnet. -/
def filesFor (s : ServiceState) (h : String) : List File :=
  s.files.filter (fun r => r.magnetID = h)

/-- The paths of a row list. -/
def pathsOf (rows : List File) : List String := rows.map (fun r => r.filePath)

/-- The database's unique (magnet, path) constraint, per magnet. -/
@[reducible] def pathsNodup (rows : List File) : Prop := (pathsOf rows).Nodup

/-- The entries the walk actually processes: each reported file whose path has
not been seen before, together with its absolute position in the report. -/
def firstOccs : List String → Nat → List TorrentFile → List (Nat × TorrentFile)
  | _, _, [] => []
  | seen, i, f :: fs =>
    if f.path ∈ seen then firstOccs seen (i + 1) fs
    else (i, f) :: firstOccs (f.path :: seen) (i + 1) fs

/-- The absolute position of the first occurrence of path `p` in a report. -/
def findFirstIdx (p : String) : Nat → List TorrentFile → Option Nat
  | _, [] => none
  | i, f :: fs => if f.path = p then some i else findFirstIdx p (i + 1) fs

/-- The staged create produced for a first occurrence whose path is new. -/
def createEntry (h : String) (fm : List (String × File)) (jf : Nat × TorrentFile) :
    Option File :=
  match lookupA fm jf.2.path with
  | none => some (newFile h jf.2 jf.1 (getMimeType jf.2.path))
  | some _ => none

/-- The staged update produced for a first occurrence whose path exists. -/
def updateEntry (fm : List (String × File)) (jf : Nat × TorrentFile) :
    Option File :=
  match lookupA fm jf.2.path with
  | none => none
  | some ex =>
    if needsUpdate ex jf.1 jf.2 (getMimeType jf.2.path) then
      some (updRow ex jf.1 jf.2 (getMimeType jf.2.path))
    else none

/-- The net effect of the sequence of `db.Save` calls on one row: the last
staged update with the row's primary key, if any. -/
def lastMatch (us : List File) (r : File) : File :=
  (us.reverse.find? (fun u => u.id == r.id)).getD r

/-- A per-magnet catalog is synchronized with a report when its paths are
unique, every row is reported, and every processed report entry has a row
with exactly the reported length, position, and derived mime type. -/
def Synced (rows : List File) (reported : List TorrentFile) : Prop :=
  pathsNodup rows ∧
  (∀ r ∈ rows, r.filePath ∈ reported.map TorrentFile.path) ∧
  (∀ jf ∈ firstOccs [] 0 reported, ∃ r ∈ rows,
    r.filePath = jf.2.path ∧ r.fileSize = jf.2.length ∧
    r.fileIndex = jf.1 ∧ r.mimeType = getMimeType jf.2.path)

end Services

namespace Handlers

/-- `handlers.RemoveMagnet`: delete the file rows, then the magnet row; the
session map is not touched. -/
def RemoveMagnet (s : ServiceState) (magnetID : String) : ServiceState :=
  { s with
    files := s.files.filter (fun r => r.magnetID ≠ magnetID),
    magnets := s.magnets.filter (fun m => m.id ≠ magnetID) }

/-- The `handlers` mime table (adds `.ssa`, charset on subtitle types). -/
def mimeForH (ext : String) : Option String :=
  if ext = ".mp4" then some "video/mp4"
  else if ext = ".mkv" then some "video/x-matroska"
  else if ext = ".avi" then some "video/x-msvideo"
  else if ext = ".mov" then some "video/quicktime"
  else if ext = ".webm" then some "video/webm"
  else if ext = ".jpg" then some "image/jpeg"
  else if ext = ".png" then some "image/png"
  else if ext = ".srt" then some "text/plain; charset=utf-8"
  else if ext = ".ass" then some "text/plain; charset=utf-8"
  else if ext = ".ssa" then some "text/plain; charset=utf-8"
  else none

/-- `handlers.getMimeType`: slices `filename[strings.LastIndex(filename, "."):]`,
which panics (`Except.error`) when there is no dot. -/
def getMimeType (filename : String) : Except String String :=
  match lastDotSuffix filename.data with
  | none => Except.error "runtime error: slice bounds out of range"
  | some suf =>
    Except.ok (match mimeForH (asciiLower (String.mk suf)) with
      | some m => m
      | none => "application/octet-stream")

/-- The video-extension set of `isVideoFile`. -/
def videoExt (ext : String) : Bool :=
  (ext == ".mp4") || (ext == ".mkv") || (ext == ".avi") || (ext == ".mov") ||
  (ext == ".webm") || (ext == ".flv") || (ext == ".wmv") || (ext == ".m4v") ||
  (ext == ".3gp")

/-- `handlers.isVideoFile`: same dangerous slice as `getMimeType`. -/
def isVideoFile (filePath : String) : Except String Bool :=
  match lastDotSuffix filePath.data with
  | none => Except.error "runtime error: slice bounds out of range"
  | some suf => Except.ok (videoExt (asciiLower (String.mk suf)))

/-- `handlers.generateETag`: hex of the byte length of `"path-start-end"`,
wrapped in double quotes. -/
def generateETag (filePath : String) (start end_ : Int) : String :=
  let key := filePath ++ "-" ++ toString start ++ "-" ++ toString end_
  "\"" ++ String.mk (Nat.toDigits 16 (strByteLen key)) ++ "\""

/-- Go `strconv.ParseInt(s, 10, 64)` restricted to what the range parser
needs: optional sign, nonempty digits, 64-bit range check. -/
def digitsToNat : List Char → Option Nat
  | [] => none
  | l =>
    if l.all (fun c => c.isDigit) then
      some (l.foldl (fun n c => n * 10 + (c.toNat - 48)) 0)
    else none

/-- `strconv.ParseInt(s, 10, 64)`. -/
def parseInt64 (s : String) : Option Int :=
  match s.data with
  | '+' :: rest =>
    (digitsToNat rest).bind (fun n =>
      if n ≤ 9223372036854775807 then some (n : Int) else none)
  | '-' :: rest =>
    (digitsToNat rest).bind (fun n =>
      if n ≤ 9223372036854775808 then some (-(n : Int)) else none)
  | l =>
    (digitsToNat l).bind (fun n =>
      if n ≤ 9223372036854775807 then some (n : Int) else none)

/-- The parsed `Range` header. -/
structure RangeInfo where
  start : Int
  end_ : Int
deriving DecidableEq

/-- `handlers.parseRangeHeader` on the character list of the header:
`strings.HasPrefix(h, "bytes=")`, `strings.TrimPrefix`, `strings.Split` on
`"-"` into exactly two parts, `ParseInt` on each (an absent end parses
as 0). -/
def parseRangeChars : List Char → Option RangeInfo
  | 'b' :: 'y' :: 't' :: 'e' :: 's' :: '=' :: rest =>
    match splitOnChar '-' rest with
    | [p0, p1] =>
      match parseInt64 (String.mk p0) with
      | none => none
      | some start =>
        if p1 = [] then some { start := start, end_ := 0 }
        else
          match parseInt64 (String.mk p1) with
          | none => none
          | some e => some { start := start, end_ := e }
    | _ => none
  | _ => none

/-- `handlers.parseRangeHeader`. -/
def parseRangeHeader (rangeHeader : String) : Option RangeInfo :=
  parseRangeChars rangeHeader.data

/-- The `(start, end)` pair `handleGet` derives from the `Range` header
(`""` means the header is absent; a parse error leaves both at 0). -/
def requestRange (rangeHeader : String) : Int × Int :=
  if rangeHeader = "" then (0, 0)
  else
    match parseRangeHeader rangeHeader with
    | some ri => (ri.start, ri.end_)
    | none => (0, 0)

/-- The observable HTTP response: status, the `Content-Range` and
`Content-Length` and `ETag` headers, and how many body bytes are copied. -/
structure Response where
  status : Nat
  contentRange : Option String
  contentLength : Option Int
  etag : Option String
  bodyBytes : Int
deriving DecidableEq

/-- The outcome of a request: a response, or a Go panic. -/
inductive Outcome where
  | ok (resp : Response)
  | panicked (msg : String)
deriving DecidableEq

/-- Status of an outcome (0 for a panic). -/
def Outcome.statusOf : Outcome → Nat
  | Outcome.ok r => r.status
  | Outcome.panicked _ => 0

/-- `Content-Range` header of an outcome. -/
def Outcome.rangeOf : Outcome → Option String
  | Outcome.ok r => r.contentRange
  | Outcome.panicked _ => none

/-- Body bytes copied by an outcome. -/
def Outcome.bodyOf : Outcome → Int
  | Outcome.ok r => r.bodyBytes
  | Outcome.panicked _ => 0

/-- `handlers.handleGet` for a file request (`/webdav/{magnetID}/{filePath}`,
path already split and percent-decoded by the HTTP surface).  Follows the
source order: parse the range, resolve the stream, run the conditional-cache
check (whose `setCacheHeaders` calls `isVideoFile` first), then derive the
mime type, normalize the end of the range, and frame the response. -/
def handleGet (s : ServiceState) (magnetID filePath method rangeHeader
    ifNoneMatch : String) : Outcome :=
  let r := requestRange rangeHeader
  let start := r.1
  let end_ := r.2
  match Services.GetFileStream s magnetID filePath start end_ with
  | Except.error _ =>
    Outcome.ok
      { status := 404, contentRange := none, contentLength := none,
        etag := none, bodyBytes := 0 }
  | Except.ok str =>
    let etag := generateETag filePath start end_
    match isVideoFile filePath with
    | Except.error msg => Outcome.panicked msg
    | Except.ok _ =>
      if ifNoneMatch ≠ "" ∧ ifNoneMatch = etag then
        Outcome.ok
          { status := 304, contentRange := none, contentLength := none,
            etag := some etag, bodyBytes := 0 }
      else
        match getMimeType filePath with
        | Except.error msg => Outcome.panicked msg
        | Except.ok _ =>
          let fileSize := str.file.length
          let end2 := if end_ = 0 ∨ end_ ≥ fileSize then fileSize - 1 else end_
          if start > 0 ∨ rangeHeader ≠ "" then
            Outcome.ok
              { status := 206,
                contentRange := some ("bytes " ++ toString start ++ "-" ++
                  toString end2 ++ "/" ++ toString fileSize),
                contentLength := some (end2 - start + 1),
                etag := some etag,
                bodyBytes := if method = "GET" then end2 - start + 1 else 0 }
          else
            Outcome.ok
              { status := 200, contentRange := none,
                contentLength := some fileSize,
                etag := some etag,
                bodyBytes := if method = "GET" then end2 - start + 1 else 0 }

end Handlers

/-! ### Concrete states used by witnesses and counterexamples -/

/-- A 100-byte video file, as reported by the engine. -/
def tfMovie : TorrentFile := { path := "movie.mp4", length := 100 }

/-- A dotless file name, as reported by the engine. -/
def tfReadme : TorrentFile := { path := "README", length := 50 }

/-- A ready torrent session holding the two files above. -/
def torrMovie : Torrent :=
  { name := "M", totalLength := 150, files := [tfMovie, tfReadme], hasInfo := true }

/-- A service state with one ready magnet `"h1"` and its live session. -/
def stReady : ServiceState :=
  { magnets := [{ id := "h1", magnetURI := "magnet:?xt=urn:btih:h1", name := "M",
                  totalSize := 150, fileCount := 2, status := "ready" }],
    files := [],
    activeTorrents := [("h1", torrMovie)],
    nextFileID := 1 }

/-- A pending magnet record for the timeout scenario. -/
def stPending : ServiceState :=
  { magnets := [{ id := "aaa", magnetURI := "magnet:?xt=urn:btih:aaa", name := "",
                  totalSize := 0, fileCount := 0, status := "pending" }],
    files := [],
    activeTorrents := [],
    nextFileID := 1 }

/-- A torrent whose metadata never arrived in time. -/
def torrSlow : Torrent :=
  { name := "", totalLength := 0, files := [], hasInfo := false }

/-- The empty service state. -/
def stEmpty : ServiceState :=
  { magnets := [], files := [], activeTorrents := [], nextFileID := 0 }

/-- Persisted row `a` (length 10) of the reconciliation example. -/
def rowA6 : File :=
  { id := 1, magnetID := "h6", filePath := "a", fileName := "a", fileSize := 10,
    fileIndex := 0, mimeType := "application/octet-stream" }

/-- Persisted row `b` (length 20) of the reconciliation example. -/
def rowB6 : File :=
  { id := 2, magnetID := "h6", filePath := "b", fileName := "b", fileSize := 20,
    fileIndex := 1, mimeType := "application/octet-stream" }

/-- A persisted row of an unrelated magnet `"hx"`. -/
def rowX : File :=
  { id := 0, magnetID := "hx", filePath := "x.mp4", fileName := "x.mp4",
    fileSize := 7, fileIndex := 0, mimeType := "video/mp4" }

/-- A state whose persisted catalog for `"h6"` is `{a:10, b:20}` (plus a row
of an unrelated magnet). -/
def st6 : ServiceState :=
  { magnets := [{ id := "h6", magnetURI := "magnet:?xt=urn:btih:h6", name := "",
                  totalSize := 0, fileCount := 0, status := "pending" }],
    files := [rowA6, rowB6, rowX],
    activeTorrents := [],
    nextFileID := 3 }

/-- The engine report `{b:25, c:5}` of the reconciliation example. -/
def torr6 : Torrent :=
  { name := "T6", totalLength := 30,
    files := [{ path := "b", length := 25 }, { path := "c", length := 5 }],
    hasInfo := true }

/-- An engine report containing a duplicated path. -/
def torrDup : Torrent :=
  { name := "D", totalLength := 13,
    files := [{ path := "d", length := 5 }, { path := "d", length := 7 },
              { path := "e", length := 1 }],
    hasInfo := true }

/-! ## Lemmas -/

open Services

/-! ### Association lists -/

theorem lookupA_eraseA_ne {α : Type} (m : List (String × α)) (k q : String)
    (h : q ≠ k) : lookupA (eraseA m k) q = lookupA m q := by
  induction m with
  | nil => rfl
  | cons kv t ih =>
    obtain ⟨k', v⟩ := kv
    by_cases hk : k' = k
    · have hq : ¬ k' = q := fun hq2 => h (hq2.symm.trans hk)
      have e1 : eraseA ((k', v) :: t) k = eraseA t k := by
        simp [eraseA, List.filter_cons, hk]
      rw [e1, ih]
      simp [lookupA, hq]
    · have e1 : eraseA ((k', v) :: t) k = (k', v) :: eraseA t k := by
        simp [eraseA, List.filter_cons, hk]
      rw [e1]
      by_cases hq : k' = q
      · simp [lookupA, hq]
      · simp [lookupA, hq, ih]

theorem mem_eraseA {α : Type} {m : List (String × α)} {k : String}
    {kv : String × α} : kv ∈ eraseA m k ↔ kv ∈ m ∧ kv.1 ≠ k := by
  simp [eraseA, List.mem_filter]

theorem lookupA_eq_none {α : Type} {m : List (String × α)} {q : String} :
    lookupA m q = none ↔ ∀ kv ∈ m, kv.1 ≠ q := by
  induction m with
  | nil => simp [lookupA]
  | cons kv t ih =>
    obtain ⟨k', v⟩ := kv
    by_cases hq : k' = q
    · subst hq
      simp [lookupA]
    · simp [lookupA, hq, ih]

theorem lookupA_mem {α : Type} {m : List (String × α)} {q : String} {v : α}
    (h : lookupA m q = some v) : (q, v) ∈ m := by
  induction m with
  | nil => simp [lookupA] at h
  | cons kv t ih =>
    obtain ⟨k', v'⟩ := kv
    by_cases hq : k' = q
    · subst hq
      simp [lookupA] at h
      simp [h]
    · simp [lookupA, hq] at h
      exact List.mem_cons_of_mem _ (ih h)

theorem lookupA_insertA_self {α : Type} (m : List (String × α)) (k : String)
    (v : α) : lookupA (insertA m k v) k = some v := by
  have h : ∀ (f : List (String × α)), (∀ kv ∈ f, kv.1 ≠ k) →
      lookupA (f ++ [(k, v)]) k = some v := by
    intro f
    induction f with
    | nil => intro _; simp [lookupA]
    | cons kv t ih =>
      intro hf
      obtain ⟨k', v'⟩ := kv
      have hne : k' ≠ k := hf (k', v') (List.mem_cons_self _ _)
      simp only [List.cons_append, lookupA, if_neg hne]
      exact ih (fun x hx => hf x (List.mem_cons_of_mem _ hx))
  exact h (eraseA m k) (fun kv hkv => (mem_eraseA.mp hkv).2)

/-! ### The magnets table -/

theorem findMagnetL_append_right {l : List Magnet} {i : String}
    (h : findMagnetL l i = none) (m : Magnet) (hm : m.id = i) :
    findMagnetL (l ++ [m]) i = some m := by
  induction l with
  | nil => simp [findMagnetL, hm]
  | cons a t ih =>
    by_cases ha : a.id = i
    · simp [findMagnetL, ha] at h
    · simp [findMagnetL, ha] at h ⊢
      exact ih h

theorem findMagnetL_map_presId {l : List Magnet} {i : String}
    (g : Magnet → Magnet) (hg : ∀ m, (g m).id = m.id) :
    findMagnetL (l.map g) i = (findMagnetL l i).map g := by
  induction l with
  | nil => rfl
  | cons a t ih =>
    by_cases ha : a.id = i
    · simp [findMagnetL, hg, ha]
    · simp [findMagnetL, hg, ha, ih]

theorem findMagnetL_filter_ne {l : List Magnet} {i : String} :
    findMagnetL (l.filter (fun m => m.id ≠ i)) i = none := by
  induction l with
  | nil => rfl
  | cons a t ih =>
    by_cases ha : a.id = i
    · simpa [List.filter, ha] using ih
    · simpa [List.filter, ha, findMagnetL] using ih

theorem findMagnetL_some_id {l : List Magnet} {i : String} {m : Magnet}
    (h : findMagnetL l i = some m) : m.id = i := by
  induction l with
  | nil => simp [findMagnetL] at h
  | cons a t ih =>
    by_cases ha : a.id = i
    · simp [findMagnetL, ha] at h
      exact h ▸ ha
    · simp [findMagnetL, ha] at h
      exact ih h

/-! ### Lengths of the fallback info-hash -/

theorem hexOfBytes_length (l : List Nat) : (hexOfBytes l).length = 2 * l.length := by
  induction l with
  | nil => rfl
  | cons b t ih =>
    simp [hexOfBytes] at ih ⊢
    omega

theorem sha1sum_length (msg : List Nat) : (sha1sum msg).length = 20 := by
  simp [sha1sum, be32]

theorem extractInfoHash_fallback_length (uri : String)
    (h : findBtih uri.data = none) : (extractInfoHash uri).length = 20 := by
  unfold extractInfoHash
  rw [h]
  have hmk : ∀ l : List Char, (String.mk l).length = l.length := fun _ => rfl
  rw [hmk]
  simp [List.length_take, hexOfBytes_length, sha1sum_length]

/-! ### Strings and validators -/

theorem strByteLen_append (s t : String) :
    strByteLen (s ++ t) = strByteLen s + strByteLen t := by
  simp [strByteLen, String.data_append]

theorem generateETag_ne_empty (p : String) (a b : Int) :
    Handlers.generateETag p a b ≠ "" := by
  unfold Handlers.generateETag
  intro hcontra
  have hdata : ("\"" ++ String.mk (Nat.toDigits 16
      (strByteLen (p ++ "-" ++ toString a ++ "-" ++ toString b))) ++ "\"").data
      = ("" : String).data := by rw [hcontra]
  simp [String.data_append] at hdata

theorem lastDotSuffix_eq_none {l : List Char} :
    lastDotSuffix l = none ↔ '.' ∉ l := by
  induction l with
  | nil => simp [lastDotSuffix]
  | cons c cs ih =>
    cases hcs : lastDotSuffix cs with
    | some suf =>
      have hmem : '.' ∈ cs := by
        by_contra hno
        rw [ih.mpr hno] at hcs
        exact Option.noConfusion hcs
      simp [lastDotSuffix, hcs, hmem]
    | none =>
      by_cases hc : c = '.'
      · simp [lastDotSuffix, hcs, hc]
      · have h1 : '.' ∉ cs := ih.mp hcs
        have h2 : ¬ '.' = c := fun h => hc h.symm
        simp [lastDotSuffix, hcs, hc, h1, h2]

theorem lastDotSuffix_isSome {l : List Char} (h : '.' ∈ l) :
    ∃ suf, lastDotSuffix l = some suf := by
  cases hl : lastDotSuffix l with
  | none => exact absurd h (lastDotSuffix_eq_none.mp hl)
  | some suf => exact ⟨suf, rfl⟩

/-! ### First occurrences in a report -/

theorem firstOccs_path_not_seen {fs : List TorrentFile} :
    ∀ {seen : List String} {i : Nat} {jf : Nat × TorrentFile},
    jf ∈ firstOccs seen i fs → jf.2.path ∉ seen := by
  induction fs with
  | nil =>
    intro seen i jf h
    simp [firstOccs] at h
  | cons f fs ih =>
    intro seen i jf h
    by_cases hf : f.path ∈ seen
    · simp only [firstOccs, if_pos hf] at h
      exact ih h
    · simp only [firstOccs, if_neg hf] at h
      rcases List.mem_cons.mp h with h1 | h1
      · rw [h1]
        exact hf
      · have h2 := ih h1
        exact fun hc => h2 (List.mem_cons_of_mem _ hc)

theorem firstOccs_paths_nodup (fs : List TorrentFile) :
    ∀ (seen : List String) (i : Nat),
    ((firstOccs seen i fs).map (fun jf => jf.2.path)).Nodup := by
  induction fs with
  | nil =>
    intro seen i
    simp [firstOccs]
  | cons f fs ih =>
    intro seen i
    by_cases hf : f.path ∈ seen
    · simp only [firstOccs, if_pos hf]
      exact ih seen (i + 1)
    · simp only [firstOccs, if_neg hf, List.map_cons, List.nodup_cons]
      refine ⟨?_, ih (f.path :: seen) (i + 1)⟩
      intro hmem
      obtain ⟨jf, hjf, hpath⟩ := List.mem_map.mp hmem
      apply firstOccs_path_not_seen hjf
      rw [hpath]
      exact List.mem_cons_self _ _

theorem firstOccs_path_mem {fs : List TorrentFile} :
    ∀ {seen : List String} {i : Nat} {jf : Nat × TorrentFile},
    jf ∈ firstOccs seen i fs → jf.2.path ∈ fs.map TorrentFile.path := by
  induction fs with
  | nil =>
    intro seen i jf h
    simp [firstOccs] at h
  | cons f fs ih =>
    intro seen i jf h
    by_cases hf : f.path ∈ seen
    · simp only [firstOccs, if_pos hf] at h
      exact List.mem_cons_of_mem _ (ih h)
    · simp only [firstOccs, if_neg hf] at h
      rcases List.mem_cons.mp h with h1 | h1
      · rw [h1]
        exact List.mem_cons_self _ _
      · exact List.mem_cons_of_mem _ (ih h1)

theorem mem_firstOccs_of_path {fs : List TorrentFile} :
    ∀ {seen : List String} {i : Nat} {p : String},
    p ∈ fs.map TorrentFile.path → p ∉ seen →
    ∃ jf ∈ firstOccs seen i fs, jf.2.path = p := by
  induction fs with
  | nil =>
    intro seen i p hp _
    simp at hp
  | cons f fs ih =>
    intro seen i p hp hns
    by_cases hpf : p = f.path
    · by_cases hf : f.path ∈ seen
      · exact absurd (hpf ▸ hf) hns
      · exact ⟨(i, f), by simp [firstOccs, if_neg hf], hpf.symm⟩
    · have hp' : p ∈ fs.map TorrentFile.path := by
        rcases List.mem_map.mp hp with ⟨g, hg, hgp⟩
        rcases List.mem_cons.mp hg with h1 | h1
        · exact absurd (hgp.symm.trans (congrArg TorrentFile.path h1)) hpf
        · exact List.mem_map.mpr ⟨g, h1, hgp⟩
      by_cases hf : f.path ∈ seen
      · simp only [firstOccs, if_pos hf]
        exact ih hp' hns
      · simp only [firstOccs, if_neg hf]
        have hns' : p ∉ f.path :: seen := by
          intro hc
          rcases List.mem_cons.mp hc with h1 | h1
          · exact hpf h1
          · exact hns h1
        obtain ⟨jf, hjf, hjp⟩ := ih hp' hns'
        exact ⟨jf, List.mem_cons_of_mem _ hjf, hjp⟩

theorem findFirstIdx_of_firstOccs {fs : List TorrentFile} :
    ∀ {seen : List String} {i : Nat} {jf : Nat × TorrentFile},
    jf ∈ firstOccs seen i fs → findFirstIdx jf.2.path i fs = some jf.1 := by
  induction fs with
  | nil =>
    intro seen i jf h
    simp [firstOccs] at h
  | cons f fs ih =>
    intro seen i jf h
    by_cases hf : f.path ∈ seen
    · simp only [firstOccs, if_pos hf] at h
      have hne : ¬ f.path = jf.2.path := by
        intro he
        exact (firstOccs_path_not_seen h) (he ▸ hf)
      simp only [findFirstIdx, if_neg hne]
      exact ih h
    · simp only [firstOccs, if_neg hf] at h
      rcases List.mem_cons.mp h with h1 | h1
      · rw [h1]
        simp [findFirstIdx]
      · have hne : ¬ f.path = jf.2.path := by
          intro he
          apply firstOccs_path_not_seen h1
          rw [← he]
          exact List.mem_cons_self _ _
        simp only [findFirstIdx, if_neg hne]
        exact ih h1

theorem firstOccs_inj {fs : List TorrentFile} {seen : List String} {i : Nat}
    {jf₁ jf₂ : Nat × TorrentFile} (h₁ : jf₁ ∈ firstOccs seen i fs)
    (h₂ : jf₂ ∈ firstOccs seen i fs) (hp : jf₁.2.path = jf₂.2.path) :
    jf₁ = jf₂ :=
  List.inj_on_of_nodup_map (firstOccs_paths_nodup fs seen i) h₁ h₂ hp

/-! ### The walk, characterized -/

theorem walk_spec (h : String) (fs : List TorrentFile) :
    ∀ (fm : List (String × File)) (seen : List String) (i : Nat),
    walk h fm seen i fs
      = ((firstOccs seen i fs).filterMap (createEntry h fm),
         (firstOccs seen i fs).filterMap (updateEntry fm),
         fm.filter (fun kv =>
           kv.1 ∉ (firstOccs seen i fs).map (fun jf => jf.2.path))) := by
  induction fs with
  | nil =>
    intro fm seen i
    simp [walk, firstOccs]
  | cons f fs ih =>
    intro fm seen i
    by_cases hf : f.path ∈ seen
    · simp only [walk, firstOccs, if_pos hf]
      exact ih fm seen (i + 1)
    · cases hlk : lookupA fm f.path with
      | some ex =>
        have hcongr : ∀ jf ∈ firstOccs (f.path :: seen) (i + 1) fs,
            lookupA (eraseA fm f.path) jf.2.path = lookupA fm jf.2.path := by
          intro jf hjf
          apply lookupA_eraseA_ne
          intro he
          exact (firstOccs_path_not_seen hjf) (he ▸ List.mem_cons_self _ _)
        simp only [walk, firstOccs, if_neg hf, hlk]
        rw [ih (eraseA fm f.path) (f.path :: seen) (i + 1)]
        simp only [List.filterMap_cons, Prod.mk.injEq]
        refine ⟨?_, ?_, ?_⟩
        · rw [show createEntry h fm (i, f) = none by simp [createEntry, hlk]]
          apply List.filterMap_congr
          intro jf hjf
          simp only [createEntry, hcongr jf hjf]
        · rw [show updateEntry fm (i, f)
              = (if needsUpdate ex i f (getMimeType f.path) then
                  some (updRow ex i f (getMimeType f.path)) else none)
            by simp [updateEntry, hlk]]
          have htail : List.filterMap (updateEntry (eraseA fm f.path))
              (firstOccs (f.path :: seen) (i + 1) fs)
              = List.filterMap (updateEntry fm)
                  (firstOccs (f.path :: seen) (i + 1) fs) := by
            apply List.filterMap_congr
            intro jf hjf
            simp only [updateEntry, hcongr jf hjf]
          by_cases hnu : needsUpdate ex i f (getMimeType f.path)
          · simp only [if_pos hnu, htail]
            rfl
          · simp only [if_neg hnu, htail]
            rfl
        · rw [eraseA, List.filter_filter]
          apply List.filter_congr
          intro kv _
          by_cases h1 : kv.1 = f.path <;>
            by_cases h2 : kv.1 ∈ (firstOccs (f.path :: seen) (i + 1) fs).map
              (fun jf => jf.2.path) <;>
            simp [h1, h2]
      | none =>
        have hnotin : ∀ kv ∈ fm, kv.1 ≠ f.path := lookupA_eq_none.mp hlk
        simp only [walk, firstOccs, if_neg hf, hlk]
        rw [ih fm (f.path :: seen) (i + 1)]
        simp only [List.filterMap_cons, Prod.mk.injEq]
        refine ⟨?_, ?_, ?_⟩
        · rw [show createEntry h fm (i, f)
              = some (newFile h f i (getMimeType f.path))
            by simp [createEntry, hlk]]
        · rw [show updateEntry fm (i, f) = none by simp [updateEntry, hlk]]
        · apply List.filter_congr
          intro kv hkv
          have h1 : ¬ kv.1 = f.path := hnotin kv hkv
          by_cases h2 : kv.1 ∈ (firstOccs (f.path :: seen) (i + 1) fs).map
              (fun jf => jf.2.path) <;>
            simp [h1, h2, fun he => h1 he]

/-! ### The file map -/

theorem eraseA_eq_self_of_not_mem {α : Type} {m : List (String × α)} {k : String}
    (h : ∀ kv ∈ m, kv.1 ≠ k) : eraseA m k = m := by
  induction m with
  | nil => rfl
  | cons kv t ih =>
    have h1 : kv.1 ≠ k := h kv (List.mem_cons_self _ _)
    have h2 := ih (fun x hx => h x (List.mem_cons_of_mem _ hx))
    simp only [eraseA, List.filter_cons] at h2 ⊢
    simp [h1, h2]
    exact fun a b hab => h (a, b) (List.mem_cons_of_mem _ hab)

theorem buildFileMap_go (rows : List File) :
    ∀ acc : List (String × File), pathsNodup rows →
    (∀ kv ∈ acc, kv.1 ∉ pathsOf rows) →
    rows.foldl (fun m r => insertA m r.filePath r) acc
      = acc ++ rows.map (fun r => (r.filePath, r)) := by
  induction rows with
  | nil =>
    intro acc _ _
    simp
  | cons r rows ih =>
    intro acc hnd hacc
    have hnd' : pathsNodup rows := by
      simpa [pathsNodup, pathsOf, List.nodup_cons] using
        (List.nodup_cons.mp hnd).2
    have hrp : r.filePath ∉ pathsOf rows := by
      have := (List.nodup_cons.mp (show ((r :: rows).map
        (fun x => x.filePath)).Nodup from hnd)).1
      simpa [pathsOf] using this
    have hinsert : insertA acc r.filePath r = acc ++ [(r.filePath, r)] := by
      unfold insertA
      rw [eraseA_eq_self_of_not_mem]
      intro kv hkv he
      exact hacc kv hkv (he ▸ List.mem_cons_self _ _)
    have hacc' : ∀ kv ∈ acc ++ [(r.filePath, r)], kv.1 ∉ pathsOf rows := by
      intro kv hkv
      rcases List.mem_append.mp hkv with h1 | h1
      · exact fun hc => hacc kv h1 (List.mem_cons_of_mem _ hc)
      · have : kv = (r.filePath, r) := by simpa using h1
        rw [this]
        exact hrp
    simp only [List.foldl_cons]
    rw [hinsert, ih (acc ++ [(r.filePath, r)]) hnd' hacc']
    simp

theorem buildFileMap_eq {rows : List File} (h : pathsNodup rows) :
    buildFileMap rows = rows.map (fun r => (r.filePath, r)) := by
  have := buildFileMap_go rows [] h (by simp)
  simpa [buildFileMap] using this

theorem lookupA_pairs_some {rows : List File} {r : File} (hnd : pathsNodup rows)
    (hr : r ∈ rows) :
    lookupA (rows.map (fun x => (x.filePath, x))) r.filePath = some r := by
  induction rows with
  | nil => simp at hr
  | cons a rows ih =>
    have hnd' : pathsNodup rows := by
      simpa [pathsNodup, pathsOf, List.nodup_cons] using
        (List.nodup_cons.mp hnd).2
    rcases List.mem_cons.mp hr with h1 | h1
    · rw [h1]
      simp [lookupA]
    · have hne : ¬ a.filePath = r.filePath := by
        intro he
        have h2 : a.filePath ∈ rows.map (fun x => x.filePath) :=
          List.mem_map.mpr ⟨r, h1, he.symm⟩
        exact (List.nodup_cons.mp (show ((a :: rows).map
          (fun x => x.filePath)).Nodup from hnd)).1 h2
      simp [lookupA, hne, ih hnd' h1]

theorem lookupA_pairs_none {rows : List File} {p : String}
    (h : ∀ r ∈ rows, r.filePath ≠ p) :
    lookupA (rows.map (fun x => (x.filePath, x))) p = none := by
  induction rows with
  | nil => rfl
  | cons a rows ih =>
    have hne : a.filePath ≠ p := h a (List.mem_cons_self _ _)
    simp [lookupA, hne, ih (fun r hr => h r (List.mem_cons_of_mem _ hr))]

theorem lookupA_pairs_inv {rows : List File} {p : String} {ex : File}
    (h : lookupA (rows.map (fun x => (x.filePath, x))) p = some ex) :
    ex ∈ rows ∧ ex.filePath = p := by
  have hmem := lookupA_mem h
  obtain ⟨r, hr, heq⟩ := List.mem_map.mp hmem
  have h1 : r.filePath = p := congrArg Prod.fst heq
  have h2 : r = ex := congrArg Prod.snd heq
  exact ⟨h2 ▸ hr, h2 ▸ h1⟩

/-! ### Assigned ids -/

theorem mem_assignIds {cs : List File} :
    ∀ {n : Nat} {x : File}, x ∈ (assignIds cs n).1 →
    ∃ c ∈ cs, x.magnetID = c.magnetID ∧ x.filePath = c.filePath ∧
      x.fileName = c.fileName ∧ x.fileSize = c.fileSize ∧
      x.fileIndex = c.fileIndex ∧ x.mimeType = c.mimeType ∧ n ≤ x.id := by
  induction cs with
  | nil =>
    intro n x h
    simp [assignIds] at h
  | cons c cs ih =>
    intro n x h
    simp only [assignIds] at h
    rcases List.mem_cons.mp h with h1 | h1
    · refine ⟨c, List.mem_cons_self _ _, ?_⟩
      rw [h1]
      simp
    · obtain ⟨c', hc', hrest⟩ := ih h1
      exact ⟨c', List.mem_cons_of_mem _ hc',
        hrest.1, hrest.2.1, hrest.2.2.1, hrest.2.2.2.1, hrest.2.2.2.2.1,
        hrest.2.2.2.2.2.1, Nat.le_of_succ_le hrest.2.2.2.2.2.2⟩

theorem assignIds_mem_of {cs : List File} {c : File} (hc : c ∈ cs) :
    ∀ n : Nat, ∃ x ∈ (assignIds cs n).1,
      x.magnetID = c.magnetID ∧ x.filePath = c.filePath ∧
      x.fileName = c.fileName ∧ x.fileSize = c.fileSize ∧
      x.fileIndex = c.fileIndex ∧ x.mimeType = c.mimeType ∧ n ≤ x.id := by
  induction cs with
  | nil => simp at hc
  | cons c₀ cs ih =>
    intro n
    have hcons : (assignIds (c₀ :: cs) n).1
        = { c₀ with id := n } :: (assignIds cs (n + 1)).1 := rfl
    rcases List.mem_cons.mp hc with h1 | h1
    · refine ⟨{ c₀ with id := n }, ?_, ?_⟩
      · rw [hcons]
        exact List.mem_cons_self _ _
      · rw [h1]
        simp
    · obtain ⟨x, hx, hrest⟩ := ih h1 (n + 1)
      refine ⟨x, ?_, hrest.1, hrest.2.1, hrest.2.2.1, hrest.2.2.2.1,
        hrest.2.2.2.2.1, hrest.2.2.2.2.2.1,
        Nat.le_of_succ_le hrest.2.2.2.2.2.2⟩
      rw [hcons]
      exact List.mem_cons_of_mem _ hx

theorem assignIds_paths (cs : List File) :
    ∀ n : Nat, (assignIds cs n).1.map (fun r => r.filePath)
      = cs.map (fun r => r.filePath) := by
  induction cs with
  | nil => intro n; rfl
  | cons c cs ih =>
    intro n
    simp [assignIds, ih (n + 1)]

theorem assignIds_ids_nodup (cs : List File) :
    ∀ n : Nat, ((assignIds cs n).1.map (fun r => r.id)).Nodup := by
  induction cs with
  | nil => intro n; simp [assignIds]
  | cons c cs ih =>
    intro n
    simp only [assignIds, List.map_cons, List.nodup_cons]
    refine ⟨?_, ih (n + 1)⟩
    intro hmem
    obtain ⟨x, hx, hid⟩ := List.mem_map.mp hmem
    obtain ⟨c', hc', h1, h2, h3, h4, h5, h6, hge⟩ := mem_assignIds hx
    have hxid : x.id = n := by simpa using hid
    omega

/-! ### Updates applied by primary key -/

theorem lastMatch_id (us : List File) (r : File) : (lastMatch us r).id = r.id := by
  unfold lastMatch
  cases hf : us.reverse.find? (fun u => u.id == r.id) with
  | none => simp
  | some u =>
    have hu := List.find?_some hf
    simp only [beq_iff_eq] at hu
    simp [hu]

theorem lastMatch_eq_of_none {us : List File} {r : File}
    (h : ∀ u ∈ us, u.id ≠ r.id) : lastMatch us r = r := by
  unfold lastMatch
  rw [List.find?_eq_none.mpr]
  · rfl
  · intro u hu
    simp only [beq_iff_eq]
    exact h u (List.mem_reverse.mp hu)

theorem lastMatch_eq_self_or_mem (us : List File) (r : File) :
    lastMatch us r = r ∨ lastMatch us r ∈ us := by
  unfold lastMatch
  cases hf : us.reverse.find? (fun u => u.id == r.id) with
  | none => exact Or.inl rfl
  | some u =>
    exact Or.inr (List.mem_reverse.mp (List.mem_of_find?_eq_some hf))

theorem lastMatch_eq_of_unique {us : List File} {r u : File} (hu : u ∈ us)
    (hid : u.id = r.id) (huniq : ∀ v ∈ us, v.id = r.id → v = u) :
    lastMatch us r = u := by
  unfold lastMatch
  have hsome : (us.reverse.find? (fun v => v.id == r.id)).isSome := by
    rw [List.find?_isSome]
    exact ⟨u, List.mem_reverse.mpr hu, by simp [hid]⟩
  cases hf : us.reverse.find? (fun v => v.id == r.id) with
  | none => rw [hf] at hsome; simp at hsome
  | some v =>
    have hv := List.find?_some hf
    simp only [beq_iff_eq] at hv
    have := huniq v (List.mem_reverse.mp (List.mem_of_find?_eq_some hf)) hv
    simp [this]

theorem lastMatch_cons (u : File) (us : List File) (r : File) :
    lastMatch (u :: us) r = lastMatch us (if r.id = u.id then u else r) := by
  unfold lastMatch
  have hid : (if r.id = u.id then u else r).id = r.id := by
    by_cases h : r.id = u.id <;> simp [h]
  simp only [hid, List.reverse_cons, List.find?_append]
  cases hf : us.reverse.find? (fun x => x.id == r.id) with
  | some v => simp [Option.or]
  | none =>
    by_cases h : r.id = u.id
    · simp [Option.or, List.find?, h]
    · have hne : ¬ u.id = r.id := fun he => h he.symm
      have hb : (u.id == r.id) = false := by simp [hne]
      simp [Option.or, List.find?, hb, h]

theorem applyUpdates_eq (us : List File) :
    ∀ rows : List File, applyUpdates us rows = rows.map (lastMatch us) := by
  induction us with
  | nil =>
    intro rows
    have hlm : lastMatch [] = fun r => r := by
      funext r
      simp [lastMatch]
    simp [applyUpdates, hlm]
  | cons u us ih =>
    intro rows
    have hstep : applyUpdates (u :: us) rows
        = applyUpdates us (rows.map (fun r => if r.id = u.id then u else r)) := rfl
    rw [hstep, ih, List.map_map]
    have hfun : (lastMatch us ∘ fun r => if r.id = u.id then u else r)
        = lastMatch (u :: us) := by
      funext r
      exact (lastMatch_cons u us r).symm
    rw [hfun]

theorem applyUpdates_ids (us rows : List File) :
    (applyUpdates us rows).map (fun r => r.id) = rows.map (fun r => r.id) := by
  rw [applyUpdates_eq, List.map_map]
  apply List.map_congr_left
  intro r _
  exact lastMatch_id us r

/-! ### The reconciliation run, characterized -/

theorem mem_filesFor {s : ServiceState} {h : String} {r : File} :
    r ∈ filesFor s h ↔ r ∈ s.files ∧ r.magnetID = h := by
  simp [filesFor, List.mem_filter]

theorem needsUpdate_false {ex : File} {i : Nat} {f : TorrentFile} {m : String}
    (h : needsUpdate ex i f m = false) :
    ex.fileSize = f.length ∧ ex.fileIndex = i ∧ ex.mimeType = m := by
  have h' : (ex.fileSize = f.length ∧ ex.fileIndex = i) ∧ ex.mimeType = m := by
    simpa [needsUpdate] using h
  exact ⟨h'.1.1, h'.1.2, h'.2⟩

theorem walk_updates_mem {s : ServiceState} {torr : Torrent} {h : String}
    (hpaths : pathsNodup (filesFor s h)) {u : File}
    (hu : u ∈ (walk h (buildFileMap (filesFor s h)) [] 0 torr.files).2.1) :
    ∃ jf ∈ firstOccs [] 0 torr.files, ∃ ex ∈ filesFor s h,
      ex.filePath = jf.2.path ∧
      needsUpdate ex jf.1 jf.2 (getMimeType jf.2.path) = true ∧
      u = updRow ex jf.1 jf.2 (getMimeType jf.2.path) := by
  rw [walk_spec, buildFileMap_eq hpaths] at hu
  obtain ⟨jf, hjf, hju⟩ := List.mem_filterMap.mp hu
  unfold updateEntry at hju
  cases hlk : lookupA ((filesFor s h).map (fun x => (x.filePath, x))) jf.2.path with
  | none =>
    rw [hlk] at hju
    simp at hju
  | some ex =>
    rw [hlk] at hju
    obtain ⟨hexmem, hexpath⟩ := lookupA_pairs_inv hlk
    by_cases hnu : needsUpdate ex jf.1 jf.2 (getMimeType jf.2.path)
    · simp only [hnu, if_true] at hju
      exact ⟨jf, hjf, ex, hexmem, hexpath, hnu, (Option.some.inj hju).symm⟩
    · simp [hnu] at hju

theorem walk_updates_of {s : ServiceState} {torr : Torrent} {h : String}
    (hpaths : pathsNodup (filesFor s h)) {jf : Nat × TorrentFile}
    (hjf : jf ∈ firstOccs [] 0 torr.files) {ex : File}
    (hex : ex ∈ filesFor s h) (hexp : ex.filePath = jf.2.path)
    (hnu : needsUpdate ex jf.1 jf.2 (getMimeType jf.2.path) = true) :
    updRow ex jf.1 jf.2 (getMimeType jf.2.path)
      ∈ (walk h (buildFileMap (filesFor s h)) [] 0 torr.files).2.1 := by
  rw [walk_spec, buildFileMap_eq hpaths]
  refine List.mem_filterMap.mpr ⟨jf, hjf, ?_⟩
  have hlk : lookupA ((filesFor s h).map (fun x => (x.filePath, x))) jf.2.path
      = some ex := hexp ▸ lookupA_pairs_some hpaths hex
  simp [updateEntry, hlk, hnu]

theorem walk_creates_mem {s : ServiceState} {torr : Torrent} {h : String}
    (hpaths : pathsNodup (filesFor s h)) {c : File}
    (hc : c ∈ (walk h (buildFileMap (filesFor s h)) [] 0 torr.files).1) :
    ∃ jf ∈ firstOccs [] 0 torr.files,
      (∀ r ∈ filesFor s h, r.filePath ≠ jf.2.path) ∧
      c = newFile h jf.2 jf.1 (getMimeType jf.2.path) := by
  rw [walk_spec, buildFileMap_eq hpaths] at hc
  obtain ⟨jf, hjf, hjc⟩ := List.mem_filterMap.mp hc
  unfold createEntry at hjc
  cases hlk : lookupA ((filesFor s h).map (fun x => (x.filePath, x))) jf.2.path with
  | some ex =>
    rw [hlk] at hjc
    simp at hjc
  | none =>
    rw [hlk] at hjc
    have hnone := lookupA_eq_none.mp hlk
    refine ⟨jf, hjf, ?_, (Option.some.inj hjc).symm⟩
    intro r hr he
    exact hnone (r.filePath, r) (List.mem_map.mpr ⟨r, hr, rfl⟩) he

theorem walk_creates_of {s : ServiceState} {torr : Torrent} {h : String}
    (hpaths : pathsNodup (filesFor s h)) {jf : Nat × TorrentFile}
    (hjf : jf ∈ firstOccs [] 0 torr.files)
    (hnew : ∀ r ∈ filesFor s h, r.filePath ≠ jf.2.path) :
    newFile h jf.2 jf.1 (getMimeType jf.2.path)
      ∈ (walk h (buildFileMap (filesFor s h)) [] 0 torr.files).1 := by
  rw [walk_spec, buildFileMap_eq hpaths]
  refine List.mem_filterMap.mpr ⟨jf, hjf, ?_⟩
  simp [createEntry, lookupA_pairs_none hnew]

theorem walk_delIds {s : ServiceState} {torr : Torrent} {h : String}
    (hpaths : pathsNodup (filesFor s h)) {x : Nat} :
    x ∈ (walk h (buildFileMap (filesFor s h)) [] 0 torr.files).2.2.map
        (fun kv => kv.2.id)
      ↔ ∃ r ∈ filesFor s h,
          r.filePath ∉ (firstOccs [] 0 torr.files).map (fun jf => jf.2.path) ∧
          r.id = x := by
  rw [walk_spec, buildFileMap_eq hpaths]
  constructor
  · intro hx
    obtain ⟨kv, hkv, hid⟩ := List.mem_map.mp hx
    have hkv' := List.mem_filter.mp hkv
    obtain ⟨r, hr, hpair⟩ := List.mem_map.mp hkv'.1
    have h1 : kv.1 = r.filePath := (congrArg Prod.fst hpair).symm
    have h2 : kv.2 = r := (congrArg Prod.snd hpair).symm
    refine ⟨r, hr, ?_, by rw [← h2]; exact hid⟩
    have := hkv'.2
    rw [h1] at this
    simpa using this
  · rintro ⟨r, hr, hnp, hid⟩
    refine List.mem_map.mpr ⟨(r.filePath, r), ?_, hid⟩
    exact List.mem_filter.mpr ⟨List.mem_map.mpr ⟨r, hr, rfl⟩, by simpa using hnp⟩

theorem filterMap_map_sublist {α β γ : Type} (l : List α) (f : α → Option β)
    (g : β → γ) (q : α → γ) (hfg : ∀ a b, f a = some b → g b = q a) :
    ((l.filterMap f).map g).Sublist (l.map q) := by
  induction l with
  | nil => simp
  | cons a l ih =>
    cases hfa : f a with
    | none =>
      simp only [List.filterMap_cons, hfa, List.map_cons]
      exact ih.cons _
    | some b =>
      simp only [List.filterMap_cons, hfa, List.map_cons]
      rw [hfg a b hfa]
      exact ih.cons₂ _

theorem walk_creates_paths_nodup {s : ServiceState} {torr : Torrent} {h : String}
    (hpaths : pathsNodup (filesFor s h)) :
    ((walk h (buildFileMap (filesFor s h)) [] 0 torr.files).1.map
      (fun r => r.filePath)).Nodup := by
  rw [walk_spec, buildFileMap_eq hpaths]
  refine List.Nodup.sublist ?_ (firstOccs_paths_nodup torr.files [] 0)
  apply filterMap_map_sublist
  intro jf c hjc
  unfold createEntry at hjc
  cases hlk : lookupA ((filesFor s h).map (fun x => (x.filePath, x))) jf.2.path with
  | some ex =>
    rw [hlk] at hjc
    simp at hjc
  | none =>
    rw [hlk] at hjc
    rw [← Option.some.inj hjc]
    rfl

theorem handleTorrentReady_files (s : ServiceState) (torr : Torrent)
    (h : String) :
    (handleTorrentReady s torr h).files
      = (applyUpdates (walk h (buildFileMap (filesFor s h)) [] 0 torr.files).2.1
          (s.files ++ (assignIds
            (walk h (buildFileMap (filesFor s h)) [] 0 torr.files).1
            s.nextFileID).1)).filter
        (fun r => ¬ r.id ∈ (walk h (buildFileMap (filesFor s h)) [] 0
          torr.files).2.2.map (fun kv => kv.2.id)) := rfl

theorem filesFor_handleTorrentReady_synced (s : ServiceState) (torr : Torrent)
    (h : String)
    (hpk : (s.files.map (fun r => r.id)).Nodup)
    (hlt : ∀ r ∈ s.files, r.id < s.nextFileID)
    (hpaths : pathsNodup (filesFor s h)) :
    Synced (filesFor (handleTorrentReady s torr h) h) torr.files := by
  set F := firstOccs [] 0 torr.files with hFdef
  set W := walk h (buildFileMap (filesFor s h)) [] 0 torr.files with hWdef
  set created := (assignIds W.1 s.nextFileID).1 with hcdef
  set delIds := W.2.2.map (fun kv => kv.2.id) with hddef
  have hfiles : (handleTorrentReady s torr h).files
      = (applyUpdates W.2.1 (s.files ++ created)).filter
          (fun r => ¬ r.id ∈ delIds) := handleTorrentReady_files s torr h
  have hidinj : ∀ a ∈ s.files, ∀ b ∈ s.files, a.id = b.id → a = b :=
    fun a ha b hb hab => List.inj_on_of_nodup_map hpk ha hb hab
  have hpinj : ∀ a ∈ filesFor s h, ∀ b ∈ filesFor s h,
      a.filePath = b.filePath → a = b :=
    fun a ha b hb hab => List.inj_on_of_nodup_map hpaths ha hb hab
  have hsubfiles : ∀ r ∈ filesFor s h, r ∈ s.files :=
    fun r hr => (mem_filesFor.mp hr).1
  have hmagnet : ∀ r ∈ filesFor s h, r.magnetID = h :=
    fun r hr => (mem_filesFor.mp hr).2
  have hcreated_ge : ∀ x ∈ created, s.nextFileID ≤ x.id := by
    intro x hx
    obtain ⟨c, _, hrest⟩ := mem_assignIds hx
    exact hrest.2.2.2.2.2.2
  have hcreated_struct : ∀ x ∈ created, ∃ jf ∈ F,
      (∀ r ∈ filesFor s h, r.filePath ≠ jf.2.path) ∧
      x.magnetID = h ∧ x.filePath = jf.2.path ∧ x.fileSize = jf.2.length ∧
      x.fileIndex = jf.1 ∧ x.mimeType = getMimeType jf.2.path := by
    intro x hx
    obtain ⟨c, hcW, hmg, hfp, hfn, hfs, hfi, hmt, _⟩ := mem_assignIds hx
    obtain ⟨jf, hjf, hnew, hce⟩ := walk_creates_mem hpaths hcW
    subst hce
    simp only [newFile] at hmg hfp hfs hfi hmt
    exact ⟨jf, hjf, hnew, hmg, hfp, hfs, hfi, hmt⟩
  have hupd_struct : ∀ u ∈ W.2.1, ∃ jf ∈ F, ∃ ex ∈ filesFor s h,
      ex.filePath = jf.2.path ∧ u.id = ex.id ∧ u.magnetID = h ∧
      u.filePath = jf.2.path ∧ u.fileSize = jf.2.length ∧ u.fileIndex = jf.1 ∧
      u.mimeType = getMimeType jf.2.path := by
    intro u hu
    obtain ⟨jf, hjf, ex, hex, hexp, hnu, hue⟩ := walk_updates_mem hpaths hu
    subst hue
    exact ⟨jf, hjf, ex, hex, hexp, rfl, hmagnet ex hex,
      by simp [updRow, hexp], by simp [updRow], by simp [updRow],
      by simp [updRow]⟩
  have hupd_lt : ∀ u ∈ W.2.1, u.id < s.nextFileID := by
    intro u hu
    obtain ⟨jf, _, ex, hex, _, hid, _⟩ := hupd_struct u hu
    rw [hid]
    exact hlt ex (hsubfiles ex hex)
  have hdel_lt : ∀ x ∈ delIds, x < s.nextFileID := by
    intro x hx
    obtain ⟨r, hr, _, hid⟩ := (walk_delIds hpaths).mp hx
    rw [← hid]
    exact hlt r (hsubfiles r hr)
  have hdel_of_unreported : ∀ r ∈ filesFor s h,
      r.filePath ∉ F.map (fun jf => jf.2.path) → r.id ∈ delIds := by
    intro r hr hnp
    exact (walk_delIds hpaths).mpr ⟨r, hr, hnp, rfl⟩
  have hnotdel_of_reported : ∀ (x : Nat), x ∈ delIds →
      ∀ r ∈ filesFor s h, r.id = x →
      r.filePath ∉ F.map (fun jf => jf.2.path) := by
    intro x hx r hr hid
    obtain ⟨r', hr', hnp', hid'⟩ := (walk_delIds hpaths).mp hx
    have : r' = r := hidinj r' (hsubfiles r' hr') r (hsubfiles r hr)
      (by rw [hid', hid])
    rw [← this]
    exact hnp'
  have hmem_iff : ∀ x : File, x ∈ filesFor (handleTorrentReady s torr h) h ↔
      ((∃ y ∈ s.files ++ created, lastMatch W.2.1 y = x) ∧ x.id ∉ delIds ∧
        x.magnetID = h) := by
    intro x
    rw [mem_filesFor, hfiles, applyUpdates_eq]
    constructor
    · rintro ⟨hx1, hmag⟩
      have hf := List.mem_filter.mp hx1
      obtain ⟨y, hy, hlm⟩ := List.mem_map.mp hf.1
      exact ⟨⟨y, hy, hlm⟩, by simpa using hf.2, hmag⟩
    · rintro ⟨⟨y, hy, hlm⟩, hnd, hmag⟩
      exact ⟨List.mem_filter.mpr ⟨List.mem_map.mpr ⟨y, hy, hlm⟩,
        by simpa using hnd⟩, hmag⟩
  -- classification of every surviving row
  have hclass : ∀ x ∈ filesFor (handleTorrentReady s torr h) h, ∃ jf ∈ F,
      x.filePath = jf.2.path ∧ x.fileSize = jf.2.length ∧ x.fileIndex = jf.1 ∧
      x.mimeType = getMimeType jf.2.path ∧
      ((∃ ex ∈ filesFor s h, x.id = ex.id ∧ ex.filePath = jf.2.path) ∨
        x ∈ created) := by
    intro x hx
    obtain ⟨⟨y, hy, hlm⟩, hnd, hmag⟩ := (hmem_iff x).mp hx
    rcases hfind : W.2.1.reverse.find? (fun u => u.id == y.id) with _ | u
    · -- no update matched y: x = y
      have hxy : x = y := by
        rw [← hlm]
        unfold lastMatch
        rw [hfind]
        rfl
      subst hxy
      have hnomatch : ∀ u ∈ W.2.1, u.id ≠ x.id := by
        intro u hu
        have := List.find?_eq_none.mp hfind u (List.mem_reverse.mpr hu)
        simpa using this
      rcases List.mem_append.mp hy with hyf | hyc
      · -- y is a persisted row of this magnet, kept unchanged
        have hyrows : x ∈ filesFor s h := mem_filesFor.mpr ⟨hyf, hmag⟩
        have hrep : x.filePath ∈ F.map (fun jf => jf.2.path) := by
          by_contra hnp
          exact hnd (hdel_of_unreported x hyrows hnp)
        obtain ⟨jf, hjf, hjp⟩ := List.mem_map.mp hrep
        have hjp' : x.filePath = jf.2.path := hjp.symm
        have hnu : needsUpdate x jf.1 jf.2 (getMimeType jf.2.path) = false := by
          by_contra hne
          have hnu' : needsUpdate x jf.1 jf.2 (getMimeType jf.2.path) = true := by
            revert hne
            cases needsUpdate x jf.1 jf.2 (getMimeType jf.2.path) <;> simp
          have hmemu := walk_updates_of hpaths hjf hyrows hjp' hnu'
          exact hnomatch _ hmemu (by simp [updRow])
        obtain ⟨h1, h2, h3⟩ := needsUpdate_false hnu
        exact ⟨jf, hjf, hjp', h1, h2, h3, Or.inl ⟨x, hyrows, rfl, hjp'⟩⟩
      · -- y is a freshly created row
        obtain ⟨jf, hjf, hnew, hmg, hfp, hfs, hfi, hmt⟩ := hcreated_struct x hyc
        exact ⟨jf, hjf, hfp, hfs, hfi, hmt, Or.inr hyc⟩
    · -- an update with y's id was applied: x = u
      have hxu : x = u := by
        rw [← hlm]
        unfold lastMatch
        rw [hfind]
        rfl
      subst hxu
      have huW : x ∈ W.2.1 :=
        List.mem_reverse.mp (List.mem_of_find?_eq_some hfind)
      obtain ⟨jf, hjf, ex, hex, hexp, hid, _, hfp, hfs, hfi, hmt⟩ :=
        hupd_struct x huW
      exact ⟨jf, hjf, hfp, hfs, hfi, hmt, Or.inl ⟨ex, hex, hid, hexp⟩⟩
  -- existence of the canonical row for every processed report entry
  have hexist : ∀ jf ∈ F, ∃ x ∈ filesFor (handleTorrentReady s torr h) h,
      x.filePath = jf.2.path ∧ x.fileSize = jf.2.length ∧ x.fileIndex = jf.1 ∧
      x.mimeType = getMimeType jf.2.path := by
    intro jf hjf
    have hrep : jf.2.path ∈ F.map (fun x => x.2.path) :=
      List.mem_map.mpr ⟨jf, hjf, rfl⟩
    by_cases hcase : ∃ ex ∈ filesFor s h, ex.filePath = jf.2.path
    · obtain ⟨ex, hexm, hexp⟩ := hcase
      have hexnotdel : ex.id ∉ delIds := by
        intro hdel
        exact hnotdel_of_reported ex.id hdel ex hexm rfl (hexp ▸ hrep)
      have hmatch : ∀ v ∈ W.2.1, v.id = ex.id →
          v = updRow ex jf.1 jf.2 (getMimeType jf.2.path) ∧
          needsUpdate ex jf.1 jf.2 (getMimeType jf.2.path) = true := by
        intro v hv hvid
        obtain ⟨jf', hjf', ex', hex', hexp', hnu', hve⟩ :=
          walk_updates_mem hpaths hv
        have hvid' : ex'.id = ex.id := by
          rw [← hvid, hve]
          simp [updRow]
        have hexeq : ex' = ex :=
          hidinj ex' (hsubfiles ex' hex') ex (hsubfiles ex hexm) hvid'
        subst hexeq
        have hjfeq : jf' = jf := by
          apply firstOccs_inj hjf' hjf
          rw [← hexp', hexp]
        subst hjfeq
        exact ⟨hve, hnu'⟩
      by_cases hnu : needsUpdate ex jf.1 jf.2 (getMimeType jf.2.path) = true
      · -- the row is updated in place
        set u := updRow ex jf.1 jf.2 (getMimeType jf.2.path) with hudef
        have huW : u ∈ W.2.1 := walk_updates_of hpaths hjf hexm hexp hnu
        have hlm : lastMatch W.2.1 ex = u :=
          lastMatch_eq_of_unique huW (by simp [hudef, updRow])
            (fun v hv hvid => (hmatch v hv hvid).1)
        refine ⟨u, (hmem_iff u).mpr ⟨⟨ex, List.mem_append.mpr
            (Or.inl (hsubfiles ex hexm)), hlm⟩, ?_, ?_⟩, ?_, ?_, ?_, ?_⟩
        · rw [show u.id = ex.id by simp [hudef, updRow]]
          exact hexnotdel
        · rw [show u.magnetID = ex.magnetID by simp [hudef, updRow]]
          exact hmagnet ex hexm
        · simp [hudef, updRow, hexp]
        · simp [hudef, updRow]
        · simp [hudef, updRow]
        · simp [hudef, updRow]
      · -- the row is already canonical and kept
        have hnu' : needsUpdate ex jf.1 jf.2 (getMimeType jf.2.path) = false := by
          revert hnu
          cases needsUpdate ex jf.1 jf.2 (getMimeType jf.2.path) <;> simp
        have hnomatch : ∀ v ∈ W.2.1, v.id ≠ ex.id := by
          intro v hv hvid
          exact hnu ((hmatch v hv hvid).2)
        obtain ⟨h1, h2, h3⟩ := needsUpdate_false hnu'
        exact ⟨ex, (hmem_iff ex).mpr ⟨⟨ex, List.mem_append.mpr
            (Or.inl (hsubfiles ex hexm)), lastMatch_eq_of_none hnomatch⟩,
            hexnotdel, hmagnet ex hexm⟩, hexp, h1, h2, h3⟩
    · -- no persisted row with this path: a row is created
      push_neg at hcase
      have hnew : ∀ r ∈ filesFor s h, r.filePath ≠ jf.2.path := hcase
      have hcW := walk_creates_of hpaths hjf hnew
      obtain ⟨x, hx, hmg, hfp, hfn, hfs, hfi, hmt, hge⟩ :=
        assignIds_mem_of hcW s.nextFileID
      have hnomatch : ∀ v ∈ W.2.1, v.id ≠ x.id := by
        intro v hv hvid
        have := hupd_lt v hv
        omega
      have hnotdel : x.id ∉ delIds := by
        intro hdel
        have := hdel_lt x.id hdel
        omega
      refine ⟨x, (hmem_iff x).mpr ⟨⟨x, List.mem_append.mpr (Or.inr hx),
          lastMatch_eq_of_none hnomatch⟩, hnotdel, ?_⟩, ?_, ?_, ?_, ?_⟩
      · rw [hmg]
        rfl
      · rw [hfp]
        rfl
      · rw [hfs]
        rfl
      · rw [hfi]
        rfl
      · rw [hmt]
        rfl
  -- ids of the surviving rows are unique
  have hids_nodup : ((filesFor (handleTorrentReady s torr h) h).map
      (fun r => r.id)).Nodup := by
    have hbase : ((s.files ++ created).map (fun r => r.id)).Nodup := by
      rw [List.map_append, List.nodup_append]
      refine ⟨hpk, assignIds_ids_nodup W.1 s.nextFileID, ?_⟩
      intro a ha hb
      obtain ⟨r, hr, hrid⟩ := List.mem_map.mp ha
      obtain ⟨x, hx, hxid⟩ := List.mem_map.mp hb
      have h1 := hlt r hr
      have h2 := hcreated_ge x hx
      omega
    have happly : ((applyUpdates W.2.1 (s.files ++ created)).map
        (fun r => r.id)).Nodup := by
      rw [applyUpdates_ids]
      exact hbase
    have hsub : (filesFor (handleTorrentReady s torr h) h).Sublist
        (applyUpdates W.2.1 (s.files ++ created)) := by
      rw [show filesFor (handleTorrentReady s torr h) h
          = ((handleTorrentReady s torr h).files).filter
              (fun r => decide (r.magnetID = h)) from rfl, hfiles]
      exact (List.filter_sublist _).trans (List.filter_sublist _)
    exact List.Nodup.sublist (List.Sublist.map _ hsub) happly
  have hidinj' : ∀ a ∈ filesFor (handleTorrentReady s torr h) h,
      ∀ b ∈ filesFor (handleTorrentReady s torr h) h, a.id = b.id → a = b :=
    fun a ha b hb hab => List.inj_on_of_nodup_map hids_nodup ha hb hab
  have hcreated_pinj : ∀ a ∈ created, ∀ b ∈ created,
      a.filePath = b.filePath → a = b := by
    have hnd : (created.map (fun r => r.filePath)).Nodup := by
      rw [hcdef, assignIds_paths]
      exact walk_creates_paths_nodup hpaths
    exact fun a ha b hb hab => List.inj_on_of_nodup_map hnd ha hb hab
  -- distinct surviving rows have distinct paths
  have hpathinj : ∀ a ∈ filesFor (handleTorrentReady s torr h) h,
      ∀ b ∈ filesFor (handleTorrentReady s torr h) h,
      a.filePath = b.filePath → a = b := by
    intro a ha b hb hab
    obtain ⟨jfa, hjfa, hpa, _, _, _, hca⟩ := hclass a ha
    obtain ⟨jfb, hjfb, hpb, _, _, _, hcb⟩ := hclass b hb
    have hjf : jfa = jfb := by
      apply firstOccs_inj hjfa hjfb
      rw [← hpa, ← hpb, hab]
    subst hjf
    rcases hca with ⟨exa, hexa, hida, hpexa⟩ | hcra
    · rcases hcb with ⟨exb, hexb, hidb, hpexb⟩ | hcrb
      · have : exa = exb := hpinj exa hexa exb hexb (by rw [hpexa, hpexb])
        exact hidinj' a ha b hb (by rw [hida, hidb, this])
      · obtain ⟨jf', hjf', hnew', _, hfp', _⟩ := hcreated_struct b hcrb
        have hjf'eq : jf' = jfa := by
          apply firstOccs_inj hjf' hjfa
          rw [← hfp', ← hpb]
        exact absurd hpexa (hjf'eq ▸ hnew' exa hexa)
    · rcases hcb with ⟨exb, hexb, hidb, hpexb⟩ | hcrb
      · obtain ⟨jf', hjf', hnew', _, hfp', _⟩ := hcreated_struct a hcra
        have hjf'eq : jf' = jfa := by
          apply firstOccs_inj hjf' hjfa
          rw [← hfp', ← hpa]
        exact absurd hpexb (hjf'eq ▸ hnew' exb hexb)
      · exact hcreated_pinj a hcra b hcrb hab
  refine ⟨?_, ?_, ?_⟩
  · exact List.Nodup.map_on hpathinj
      (List.Nodup.of_map (fun r => r.id) hids_nodup)
  · intro r hr
    obtain ⟨jf, hjf, hp, _⟩ := hclass r hr
    rw [hp]
    exact firstOccs_path_mem hjf
  · intro jf hjf
    exact hexist jf hjf

theorem walk_of_synced {h : String} {rows : List File}
    {reported : List TorrentFile} (hs : Synced rows reported) :
    walk h (buildFileMap rows) [] 0 reported = ([], [], []) := by
  obtain ⟨hnd, hsub, hcanon⟩ := hs
  rw [walk_spec, buildFileMap_eq hnd]
  have hlkof : ∀ jf ∈ firstOccs [] 0 reported,
      ∃ r ∈ rows, r.filePath = jf.2.path ∧ r.fileSize = jf.2.length ∧
        r.fileIndex = jf.1 ∧ r.mimeType = getMimeType jf.2.path ∧
        lookupA (rows.map (fun x => (x.filePath, x))) jf.2.path = some r := by
    intro jf hjf
    obtain ⟨r, hr, hrp, hrs, hri, hrm⟩ := hcanon jf hjf
    exact ⟨r, hr, hrp, hrs, hri, hrm, hrp ▸ lookupA_pairs_some hnd hr⟩
  simp only [Prod.mk.injEq]
  refine ⟨?_, ?_, ?_⟩
  · rw [List.filterMap_eq_nil_iff]
    intro jf hjf
    obtain ⟨r, _, _, _, _, _, hlk⟩ := hlkof jf hjf
    simp [createEntry, hlk]
  · rw [List.filterMap_eq_nil_iff]
    intro jf hjf
    obtain ⟨r, _, hrp, hrs, hri, hrm, hlk⟩ := hlkof jf hjf
    have hnu : needsUpdate r jf.1 jf.2 (getMimeType jf.2.path) = false := by
      simp [needsUpdate, hrs, hri, hrm]
    simp [updateEntry, hlk, hnu]
  · rw [List.filter_eq_nil_iff]
    intro kv hkv
    obtain ⟨r, hr, hpair⟩ := List.mem_map.mp hkv
    have hrep : r.filePath ∈ reported.map TorrentFile.path := hsub r hr
    obtain ⟨jf, hjf, hjfp⟩ :=
      @mem_firstOccs_of_path reported [] 0 r.filePath hrep (List.not_mem_nil _)
    have : kv.1 ∈ (firstOccs [] 0 reported).map (fun jf => jf.2.path) := by
      refine List.mem_map.mpr ⟨jf, hjf, ?_⟩
      rw [hjfp, ← hpair]
    simp [this]

theorem filesFor_handleTorrentReady_paths_sub (s : ServiceState) (torr : Torrent)
    (h : String) (hpaths : pathsNodup (filesFor s h)) :
    ∀ x ∈ filesFor (handleTorrentReady s torr h) h,
      x.filePath ∈ torr.files.map TorrentFile.path := by
  intro x hx
  rw [mem_filesFor, handleTorrentReady_files, applyUpdates_eq] at hx
  obtain ⟨hx1, hmag⟩ := hx
  have hf := List.mem_filter.mp hx1
  obtain ⟨y, hy, hlm⟩ := List.mem_map.mp hf.1
  have hnd : x.id ∉ (walk h (buildFileMap (filesFor s h)) [] 0
      torr.files).2.2.map (fun kv => kv.2.id) := by
    simpa using hf.2
  rcases hfind : (walk h (buildFileMap (filesFor s h)) [] 0
      torr.files).2.1.reverse.find? (fun u => u.id == y.id) with _ | u
  · have hxy : x = y := by
      rw [← hlm]
      unfold lastMatch
      rw [hfind]
      rfl
    subst hxy
    rcases List.mem_append.mp hy with hyf | hyc
    · have hyrows : x ∈ filesFor s h := mem_filesFor.mpr ⟨hyf, hmag⟩
      by_cases hrep : x.filePath ∈ (firstOccs [] 0 torr.files).map
          (fun jf => jf.2.path)
      · obtain ⟨jf, hjf, hjp⟩ := List.mem_map.mp hrep
        rw [← hjp]
        exact firstOccs_path_mem hjf
      · exact absurd ((walk_delIds hpaths).mpr ⟨x, hyrows, hrep, rfl⟩) hnd
    · obtain ⟨c, hcW, _, hfp, _⟩ := mem_assignIds hyc
      obtain ⟨jf, hjf, _, hce⟩ := walk_creates_mem hpaths hcW
      subst hce
      simp only [newFile] at hfp
      rw [hfp]
      exact firstOccs_path_mem hjf
  · have hxu : x = u := by
      rw [← hlm]
      unfold lastMatch
      rw [hfind]
      rfl
    subst hxu
    have huW := List.mem_reverse.mp (List.mem_of_find?_eq_some hfind)
    obtain ⟨jf, hjf, ex, hex, hexp, hnu, hue⟩ := walk_updates_mem hpaths huW
    subst hue
    have hup : (updRow ex jf.1 jf.2 (getMimeType jf.2.path)).filePath
        = jf.2.path := by
      simp [updRow, hexp]
    rw [hup]
    exact firstOccs_path_mem hjf

/-! ## Claim C5 -/

/-- C5: reconciliation is idempotent: after one synchronizer run, a second
run with the unchanged swarm file list stages zero creates, zero updates and
zero deletes (the walk yields empty create/update lists and an empty
leftover map), and consequently leaves the file table unchanged.  The
hypotheses are the database invariants: primary-key uniqueness, the
auto-increment counter exceeding every row id, and the unique
(magnet, path) constraint. -/
theorem sync_second_run_stages_nothing (s : ServiceState) (torr : Torrent)
    (h : String)
    (hpk : (s.files.map (fun r => r.id)).Nodup)
    (hlt : ∀ r ∈ s.files, r.id < s.nextFileID)
    (hpaths : pathsNodup (filesFor s h)) :
    walk h (buildFileMap (filesFor (handleTorrentReady s torr h) h)) [] 0
        torr.files = ([], [], []) ∧
    (handleTorrentReady (handleTorrentReady s torr h) torr h).files
      = (handleTorrentReady s torr h).files := by
  have hsynced := filesFor_handleTorrentReady_synced s torr h hpk hlt hpaths
  have hw := walk_of_synced (h := h) hsynced
  refine ⟨hw, ?_⟩
  rw [handleTorrentReady_files, hw]
  simp [assignIds, applyUpdates]

/-- Witness for C5 at a concrete input. -/
theorem sync_second_run_stages_nothing_witness :
    walk "h6" (buildFileMap (filesFor (handleTorrentReady st6 torr6 "h6") "h6"))
        [] 0 torr6.files = ([], [], []) :=
  (sync_second_run_stages_nothing st6 torr6 "h6" (by decide) (by decide)
    (by decide)).1

/-! ## Claim C6 -/

/-- C6: (i) concretely, with the prior catalog {a:10, b:20} (ids 1, 2) and
the new report {b:25, c:5}, the synchronizer stages exactly one create (c,
length 5, index 1), one update (b, length 20 → 25, index 1 → 0) and one
delete (a), and the final catalog for the magnet is b then c with indices
matching the reported order; (ii) in general, after the run no surviving row
for the magnet carries a persisted path that the new report does not
mention — such rows are deleted. -/
theorem sync_diff_example_and_deletes :
    (walk "h6" (buildFileMap (filesFor st6 "h6")) [] 0 torr6.files
      = ([newFile "h6" { path := "c", length := 5 } 1 "application/octet-stream"],
         [{ rowB6 with fileSize := 25, fileIndex := 0 }],
         [("a", rowA6)]) ∧
     filesFor (handleTorrentReady st6 torr6 "h6") "h6"
      = [{ rowB6 with fileSize := 25, fileIndex := 0 },
         { id := 3, magnetID := "h6", filePath := "c", fileName := "c",
           fileSize := 5, fileIndex := 1,
           mimeType := "application/octet-stream" }]) ∧
    (∀ (s : ServiceState) (torr : Torrent) (h : String) (r : File),
      pathsNodup (filesFor s h) → r ∈ filesFor s h →
      r.filePath ∉ torr.files.map TorrentFile.path →
      ∀ x ∈ filesFor (handleTorrentReady s torr h) h,
        x.filePath ≠ r.filePath) := by
  refine ⟨⟨by decide, by decide⟩, ?_⟩
  intro s torr h r hpaths _ hnp x hx he
  exact hnp (he ▸ filesFor_handleTorrentReady_paths_sub s torr h hpaths x hx)

/-- Witness for C6's general part at a concrete input. -/
theorem sync_diff_example_and_deletes_witness :
    ({ rowB6 with fileSize := 25, fileIndex := 0 } : File).filePath ≠ "a" :=
  sync_diff_example_and_deletes.2 st6 torr6 "h6" rowA6 (by decide) (by decide)
    (by decide) { rowB6 with fileSize := 25, fileIndex := 0 } (by decide)

/-! ## Claim C7 -/

/-- C7: duplicate-path defense: when the reported file list contains the
same relative path more than once, reconciliation yields exactly one file
row for that path, whose positional index is the position of the path's
first occurrence in the reported walk; later duplicates are skipped. -/
theorem duplicate_path_single_entry (s : ServiceState) (torr : Torrent)
    (h p : String)
    (hpk : (s.files.map (fun r => r.id)).Nodup)
    (hlt : ∀ r ∈ s.files, r.id < s.nextFileID)
    (hpaths : pathsNodup (filesFor s h))
    (hdup : 1 < (torr.files.map TorrentFile.path).count p) :
    ∃ x ∈ filesFor (handleTorrentReady s torr h) h,
      x.filePath = p ∧ findFirstIdx p 0 torr.files = some x.fileIndex ∧
      ∀ y ∈ filesFor (handleTorrentReady s torr h) h, y.filePath = p → y = x := by
  obtain ⟨hnd, hsub, hcanon⟩ :=
    filesFor_handleTorrentReady_synced s torr h hpk hlt hpaths
  have hp : p ∈ torr.files.map TorrentFile.path :=
    List.count_pos_iff.mp (by omega)
  obtain ⟨jf, hjf, hjp⟩ :=
    @mem_firstOccs_of_path torr.files [] 0 p hp (List.not_mem_nil _)
  obtain ⟨x, hx, hxp, hxs, hxi, hxm⟩ := hcanon jf hjf
  refine ⟨x, hx, by rw [hxp, hjp], ?_, ?_⟩
  · rw [← hjp, hxi]
    exact findFirstIdx_of_firstOccs hjf
  · intro y hy hyp
    exact List.inj_on_of_nodup_map hnd hy hx (by rw [hyp, hxp, hjp])

/-- Witness for C7 at a concrete input: the report [d:5, d:7, e:1] yields a
single row for path d with index 0. -/
theorem duplicate_path_single_entry_witness :
    ∃ x ∈ filesFor (handleTorrentReady stEmpty torrDup "hD") "hD",
      x.filePath = "d" ∧ findFirstIdx "d" 0 torrDup.files = some x.fileIndex ∧
      ∀ y ∈ filesFor (handleTorrentReady stEmpty torrDup "hD") "hD",
        y.filePath = "d" → y = x :=
  duplicate_path_single_entry stEmpty torrDup "hD" "d" (by decide) (by decide)
    (by decide) (by decide)

/-! ## Claim C1 -/

/-- C1 (code bug): for the 100-byte file `movie.mp4`, a GET with
`Range: bytes=0-0` does NOT return exactly 1 byte with
`Content-Range: bytes 0-0/100`.  `handleGet` normalizes the end whenever the
parsed end is 0 — it cannot distinguish an explicit end of 0 from an absent
end — so this request is answered 206 with `Content-Range: bytes 0-99/100`
and 100 copied body bytes.  A GET with no range does return all 100 bytes
with status 200, as the claim states. -/
theorem range_zero_zero_divergence :
    (Handlers.handleGet stReady "h1" "movie.mp4" "GET" "bytes=0-0" "").statusOf = 206 ∧
    (Handlers.handleGet stReady "h1" "movie.mp4" "GET" "bytes=0-0" "").rangeOf
      = some "bytes 0-99/100" ∧
    (Handlers.handleGet stReady "h1" "movie.mp4" "GET" "bytes=0-0" "").bodyOf = 100 ∧
    (Handlers.handleGet stReady "h1" "movie.mp4" "GET" "" "").statusOf = 200 ∧
    (Handlers.handleGet stReady "h1" "movie.mp4" "GET" "" "").bodyOf = 100 := by
  decide

/-! ## Claim C2 -/

/-- C2 (counterexample): after the metadata timeout the record is marked
`error` with reason "metadata timeout", but the session was registered in the
map before the wait began and is not removed on timeout, so `GetTorrent` does
not return absent — refuting the claim's "no session is registered in the
session map … GetTorrent … returns absent" at this concrete input. -/
theorem timeout_session_not_absent :
    (findMagnetL (addTorrentToClient stPending "magnet:?xt=urn:btih:aaa" "aaa"
        (EngineResult.added torrSlow RaceOutcome.timeout)).magnets "aaa").map
        Magnet.status = some "error" ∧
    GetTorrent (addTorrentToClient stPending "magnet:?xt=urn:btih:aaa" "aaa"
        (EngineResult.added torrSlow RaceOutcome.timeout)) "aaa" = some torrSlow := by
  decide

/-- C2 (amended): when the client accepts the magnet and the metadata race
times out, the content record transitions to `error` with reason
"metadata timeout" (stored in its name field); however the session was
registered in the session map before the metadata wait and is not
deregistered on timeout, so a subsequent `GetTorrent` for that identifier
returns the session, not absent. -/
theorem timeout_marks_error_session_remains (s : ServiceState)
    (uri h : String) (t : Torrent) (m : Magnet)
    (hm : findMagnetL s.magnets h = some m) :
    findMagnetL (addTorrentToClient s uri h
        (EngineResult.added t RaceOutcome.timeout)).magnets h
      = some { m with status := "error", name := "metadata timeout" } ∧
    GetTorrent (addTorrentToClient s uri h
        (EngineResult.added t RaceOutcome.timeout)) h = some t := by
  have hid := findMagnetL_some_id hm
  constructor
  · simp only [addTorrentToClient, updateMagnetStatus]
    have hred : (fun (m' : Magnet) => if m'.id = h then
          (if ("metadata timeout" : String) ≠ "" then
            { m' with status := "error", name := "metadata timeout" }
          else { m' with status := "error" })
        else m')
        = (fun (m' : Magnet) => if m'.id = h then
            { m' with status := "error", name := "metadata timeout" } else m') := by
      funext m'
      simp
    rw [hred, findMagnetL_map_presId _ ?hg, hm]
    case hg =>
      intro m'
      by_cases hh : m'.id = h <;> simp [hh]
    simp [hid]
  · simp only [addTorrentToClient, updateMagnetStatus, GetTorrent]
    exact lookupA_insertA_self s.activeTorrents h t

/-- Witness for C2's amended theorem at a concrete input. -/
theorem timeout_marks_error_session_remains_witness :
    GetTorrent (addTorrentToClient stPending "magnet:?xt=urn:btih:bbb" "aaa"
        (EngineResult.added torrSlow RaceOutcome.timeout)) "aaa" = some torrSlow :=
  (timeout_marks_error_session_remains stPending "magnet:?xt=urn:btih:bbb" "aaa"
    torrSlow
    { id := "aaa", magnetURI := "magnet:?xt=urn:btih:aaa", name := "",
      totalSize := 0, fileCount := 0, status := "pending" }
    (by decide)).2

/-! ## Claim C3 -/

/-- C3 (counterexample): the validator is the hex of the LENGTH of the string
"path-start-end", so the distinct paths "a.mp4" and "b.mp4" with the same
range (0, 0) receive the same validator — a collision across distinct files,
refuting "a validator collision across distinct files is impossible". -/
theorem etag_collision_between_distinct_paths :
    ("a.mp4" : String) ≠ "b.mp4" ∧
    Handlers.generateETag "a.mp4" 0 0 = Handlers.generateETag "b.mp4" 0 0 := by
  decide

/-- C3 (amended): the validator depends only on the byte length of the
"path-start-end" key, so for a fixed (start, end) range any two paths of
equal byte length — in particular distinct ones — receive the same
validator: collisions across distinct files are possible by construction,
not impossible. -/
theorem etag_depends_only_on_path_length (p₁ p₂ : String) (start end_ : Int)
    (h : strByteLen p₁ = strByteLen p₂) :
    Handlers.generateETag p₁ start end_ = Handlers.generateETag p₂ start end_ := by
  have e1 : strByteLen (p₁ ++ "-" ++ toString start ++ "-" ++ toString end_)
      = strByteLen (p₂ ++ "-" ++ toString start ++ "-" ++ toString end_) := by
    simp [strByteLen_append, h]
  simp only [Handlers.generateETag, e1]

/-- Witness for C3's amended theorem at a concrete input. -/
theorem etag_depends_only_on_path_length_witness :
    Handlers.generateETag "cc.mkv" 3 7 = Handlers.generateETag "dd.mkv" 3 7 :=
  etag_depends_only_on_path_length "cc.mkv" "dd.mkv" 3 7 (by decide)

/-! ## Claim C4 -/

/-- C4: `AddMagnet` computes the identifier deterministically from the URI —
the lowercased btih token when the regex matches, otherwise a fixed-length
(20 character) hash of the raw URI text — and submitting the same URI a
second time returns the already-persisted record unchanged, leaves the state
unchanged (no second content record), and spawns no new session goroutine. -/
theorem addMagnet_idempotent (s : ServiceState) (uri : String) :
    (AddMagnet s uri).1.id = extractInfoHash uri ∧
    (∀ tok, findBtih uri.data = some tok →
      extractInfoHash uri = asciiLower (String.mk tok)) ∧
    (findBtih uri.data = none → (extractInfoHash uri).length = 20) ∧
    AddMagnet (AddMagnet s uri).2.1 uri
      = ((AddMagnet s uri).1, (AddMagnet s uri).2.1, false) := by
  refine ⟨?_, ?_, ?_, ?_⟩
  · cases hfm : findMagnetL s.magnets (extractInfoHash uri) with
    | some m => simp [AddMagnet, hfm, findMagnetL_some_id hfm]
    | none => simp [AddMagnet, hfm]
  · intro tok htok
    simp [extractInfoHash, htok]
  · exact extractInfoHash_fallback_length uri
  · cases hfm : findMagnetL s.magnets (extractInfoHash uri) with
    | some m => simp [AddMagnet, hfm]
    | none =>
      have happ := @findMagnetL_append_right s.magnets (extractInfoHash uri) hfm
        { id := extractInfoHash uri, magnetURI := uri, name := "", totalSize := 0,
          fileCount := 0, status := "pending" } rfl
      simp [AddMagnet, hfm, happ]

/-- Witness for C4 at concrete inputs (one URI with a btih token, one
without). -/
theorem addMagnet_idempotent_witness :
    (AddMagnet stEmpty "magnet:?xt=urn:btih:XYZ&dn=n").1.id = "xyz" ∧
    extractInfoHash "magnet:?xt=urn:btih:XYZ&dn=n"
      = asciiLower (String.mk ['X', 'Y', 'Z']) ∧
    (extractInfoHash "http://example.com/x").length = 20 ∧
    AddMagnet (AddMagnet stEmpty "magnet:?xt=urn:btih:XYZ&dn=n").2.1
        "magnet:?xt=urn:btih:XYZ&dn=n"
      = ((AddMagnet stEmpty "magnet:?xt=urn:btih:XYZ&dn=n").1,
         (AddMagnet stEmpty "magnet:?xt=urn:btih:XYZ&dn=n").2.1, false) := by
  refine ⟨?_, ?_, ?_, ?_⟩
  · have h := (addMagnet_idempotent stEmpty "magnet:?xt=urn:btih:XYZ&dn=n").1
    rw [h]
    decide
  · exact (addMagnet_idempotent stEmpty "magnet:?xt=urn:btih:XYZ&dn=n").2.1
      ['X', 'Y', 'Z'] (by decide)
  · exact (addMagnet_idempotent stEmpty "http://example.com/x").2.2.1 (by decide)
  · exact (addMagnet_idempotent stEmpty "magnet:?xt=urn:btih:XYZ&dn=n").2.2.2

/-! ## Claim C8 -/

/-- C8: the cache validator is a deterministic function of the
(path, start, end) triple — identical triples give identical validators —
and a GET whose `If-None-Match` equals the validator of the triple the
handler computes for the request is answered "not modified" (304) with no
body bytes copied. -/
theorem etag_conditional_short_circuit (s : ServiceState)
    (magnetID filePath rangeHeader : String) (st en : Int) (v : FileStream)
    (hr : Handlers.requestRange rangeHeader = (st, en))
    (hs : GetFileStream s magnetID filePath st en = Except.ok v)
    (hdot : '.' ∈ filePath.data) :
    (∀ p₁ p₂ : String, ∀ a₁ a₂ b₁ b₂ : Int, p₁ = p₂ → a₁ = a₂ → b₁ = b₂ →
      Handlers.generateETag p₁ a₁ b₁ = Handlers.generateETag p₂ a₂ b₂) ∧
    Handlers.handleGet s magnetID filePath "GET" rangeHeader
        (Handlers.generateETag filePath st en)
      = Handlers.Outcome.ok
          { status := 304, contentRange := none, contentLength := none,
            etag := some (Handlers.generateETag filePath st en), bodyBytes := 0 } := by
  constructor
  · intro p₁ p₂ a₁ a₂ b₁ b₂ hp ha hb
    rw [hp, ha, hb]
  · obtain ⟨suf, hsuf⟩ := lastDotSuffix_isSome hdot
    have hne := generateETag_ne_empty filePath st en
    simp [Handlers.handleGet, hr, hs, Handlers.isVideoFile, hsuf, hne]

/-- Witness for C8 at a concrete input. -/
theorem etag_conditional_short_circuit_witness :
    Handlers.handleGet stReady "h1" "movie.mp4" "GET" "bytes=10-20"
        (Handlers.generateETag "movie.mp4" 10 20)
      = Handlers.Outcome.ok
          { status := 304, contentRange := none, contentLength := none,
            etag := some (Handlers.generateETag "movie.mp4" 10 20),
            bodyBytes := 0 } :=
  (etag_conditional_short_circuit stReady "h1" "movie.mp4" "bytes=10-20" 10 20
    { file := tfMovie, readerStart := 10 } (by decide) rfl (by decide)).2

/-! ## Claim C9 -/

/-- C9: the handler's media-type derivation is not total: for every file path
containing no '.', `handlers.getMimeType` and `handlers.isVideoFile` slice
the path from index `strings.LastIndex(path, ".") = -1` and panic, so a GET
whose stream resolution succeeds for a dotless file name cannot complete
normally — the request ends in the panic outcome. -/
theorem dotless_path_panics (s : ServiceState)
    (magnetID filePath method rangeHeader ifNoneMatch : String) (v : FileStream)
    (hnodot : '.' ∉ filePath.data)
    (hs : GetFileStream s magnetID filePath (Handlers.requestRange rangeHeader).1
        (Handlers.requestRange rangeHeader).2 = Except.ok v) :
    (∃ msg, Handlers.getMimeType filePath = Except.error msg) ∧
    (∃ msg, Handlers.isVideoFile filePath = Except.error msg) ∧
    (∃ msg, Handlers.handleGet s magnetID filePath method rangeHeader ifNoneMatch
      = Handlers.Outcome.panicked msg) := by
  have hnone : lastDotSuffix filePath.data = none := lastDotSuffix_eq_none.mpr hnodot
  refine ⟨⟨"runtime error: slice bounds out of range", ?_⟩,
          ⟨"runtime error: slice bounds out of range", ?_⟩,
          ⟨"runtime error: slice bounds out of range", ?_⟩⟩
  · simp [Handlers.getMimeType, hnone]
  · simp [Handlers.isVideoFile, hnone]
  · simp [Handlers.handleGet, hs, Handlers.isVideoFile, hnone]

/-- Witness for C9 at a concrete input: a GET for the dotless file name
`README` panics. -/
theorem dotless_path_panics_witness :
    ∃ msg, Handlers.handleGet stReady "h1" "README" "GET" "" ""
      = Handlers.Outcome.panicked msg :=
  (dotless_path_panics stReady "h1" "README" "GET" "" ""
    { file := tfReadme, readerStart := 0 } (by decide) rfl).2.2

/-! ## Claim C10 -/

/-- C10: `RemoveMagnet` mutates only the persisted catalog: the session map
is unchanged, `GetTorrent` and `GetFileStream` behave exactly as before the
removal, while the magnet's file rows and content record are gone; only
`Stop` drops sessions (after it, every lookup is absent). -/
theorem removeMagnet_preserves_sessions (s : ServiceState) (magnetID : String) :
    (Handlers.RemoveMagnet s magnetID).activeTorrents = s.activeTorrents ∧
    (∀ h, GetTorrent (Handlers.RemoveMagnet s magnetID) h = GetTorrent s h) ∧
    (∀ h fp start end_,
      GetFileStream (Handlers.RemoveMagnet s magnetID) h fp start end_
        = GetFileStream s h fp start end_) ∧
    (∀ r ∈ (Handlers.RemoveMagnet s magnetID).files, r.magnetID ≠ magnetID) ∧
    findMagnetL (Handlers.RemoveMagnet s magnetID).magnets magnetID = none ∧
    (∀ h, GetTorrent (Stop s) h = none) := by
  refine ⟨rfl, fun _ => rfl, fun _ _ _ _ => rfl, ?_, findMagnetL_filter_ne,
    fun _ => rfl⟩
  intro r hr
  have hmem := List.mem_filter.mp hr
  simpa using hmem.2

/-- Witness for C10 at concrete inputs. -/
theorem removeMagnet_preserves_sessions_witness :
    rowX.magnetID ≠ "h6" ∧
    GetTorrent (Handlers.RemoveMagnet stReady "h1") "h1" = some torrMovie := by
  constructor
  · exact (removeMagnet_preserves_sessions st6 "h6").2.2.2.1 rowX (by decide)
  · rw [(removeMagnet_preserves_sessions stReady "h1").2.1 "h1"]
    decide

end MagnetWebdav
